import Mathlib

/-!
Verification development for the yahmm hidden Markov model library
(src/yahmm/yahmm.pyx).

The library's numeric kernels work in log space, accumulating with
`pair_lse` (log-sum-exp) and using `NEGINF` for impossible events, and
they rescale each DP row by its log-sum and add the scale factors back
before returning.  Throughout this file the kernels are embedded in exact
probability space over `ℚ`: the image of the log-space code under `exp`,
which maps `pair_lse` to `+`, `+` (of log probabilities) to `*`, `NEGINF`
to `0`, `max` to `max`, and strict comparison to strict comparison
(`exp` is strictly monotone).  The per-row rescaling divides a row by its
sum and the final pass multiplies the scale factors back, so in exact
arithmetic it is the identity and the unrescaled table below is the exact
value of the table the code returns.

Model state indices, emission values `e t i = exp(states[i].distribution
.log_probability(sequence[t]))`, edge probabilities and state weights are
taken as the primitive inputs, exactly as the compiled model stores them.
-/

namespace Yahmm

/-- One compiled transition, as stored by `Model.bake` in the CSR arrays
`in_transitions`/`out_transitions` with probability
`exp(*_transition_log_probabilities)`: source state index, target state
index, and (non-log) probability. -/
structure Edge where
  src : ℕ
  tgt : ℕ
  p : ℚ
deriving DecidableEq, Repr

/-- The compiled (baked) model data used by the DP kernels of
`Model`: number of states `m`, index `silent_start` of the first silent
state, `start_index`, `end_index`, the edge set, and the `finite` flag
(`Model.bake` sets it to the number of in-edges of the end state being
positive). -/
structure Model where
  m : ℕ
  silent_start : ℕ
  start_index : ℕ
  end_index : ℕ
  edges : List Edge
  finite : Bool
deriving Repr

/-- Sum of `g` over the edges satisfying `q`; the exact-arithmetic value of
a `pair_lse` accumulation loop over a CSR edge range. -/
def edgeSum (edges : List Edge) (q : Edge → Bool) (g : Edge → ℚ) : ℚ :=
  ((edges.filter q).map g).sum

/-- Accumulation over the in-edges of state `l` whose source passes `keep`,
of `f(source) * probability`: one `for k in xrange(in_edges[l], in_edges[l+1])`
loop of `Model._forward` / `Model._viterbi` in probability space. -/
def inSum (M : Model) (l : ℕ) (keep : ℕ → Bool) (f : ℕ → ℚ) : ℚ :=
  edgeSum M.edges (fun ed => ed.tgt == l && keep ed.src) (fun ed => f ed.src * ed.p)

/-- Accumulation over the out-edges of state `k` whose target passes `keep`,
of `f(target) * probability`: one `for l in xrange(out_edges[k], out_edges[k+1])`
loop of `Model._backward` in probability space. -/
def outSum (M : Model) (k : ℕ) (keep : ℕ → Bool) (f : ℕ → ℚ) : ℚ :=
  edgeSum M.edges (fun ed => ed.src == k && keep ed.tgt) (fun ed => f ed.tgt * ed.p)

/-- In-place update sweep over a row of a DP table: visit the cell indices
in `idxs` in order, replacing cell `l` by `step f l` where `f` is the
current state of the row.  This models the loops of the kernels that
mutate the row they are reading. -/
def sweep {α : Type} (step : (ℕ → α) → ℕ → α) (idxs : List ℕ) (f0 : ℕ → α) : ℕ → α :=
  idxs.foldl (fun f l => Function.update f l (step f l)) f0

/-- Indices of the silent states of a baked model: `xrange(silent_start, m)`. -/
def silentRange (M : Model) : List ℕ :=
  List.range' M.silent_start (M.m - M.silent_start)

section SweepLemmas

variable {α β : Type}

theorem sweep_nil (step : (ℕ → α) → ℕ → α) (f0 : ℕ → α) : sweep step [] f0 = f0 := rfl

theorem sweep_cons (step : (ℕ → α) → ℕ → α) (l : ℕ) (idxs : List ℕ) (f0 : ℕ → α) :
    sweep step (l :: idxs) f0 = sweep step idxs (Function.update f0 l (step f0 l)) := rfl

/-- Cells not visited by a sweep keep their initial value. -/
theorem sweep_not_mem (step : (ℕ → α) → ℕ → α) (idxs : List ℕ) (f0 : ℕ → α) (x : ℕ)
    (hx : x ∉ idxs) : sweep step idxs f0 x = f0 x := by
  induction idxs generalizing f0 with
  | nil => rfl
  | cons l rest ih =>
    rw [sweep_cons]
    rw [ih _ (fun h => hx (List.mem_cons_of_mem _ h))]
    have hxl : x ≠ l := fun h => hx (h ▸ List.mem_cons_self _ _)
    exact Function.update_noteq hxl _ _

/-- A sweep over an ascending index range computes `target` on every visited
cell, provided cells below the range already hold `target` and each step
computes `target l` from the finished cells below `l` and the untouched
cells at or above `l`. -/
theorem sweep_asc_char (step : (ℕ → α) → ℕ → α) (len : ℕ) : ∀ (a : ℕ) (f0 target : ℕ → α),
    (∀ x, x < a → f0 x = target x) →
    (∀ g l, a ≤ l → l < a + len →
      (∀ x, x < l → g x = target x) → (∀ x, l ≤ x → g x = f0 x) →
      step g l = target l) →
    ∀ x, x < a + len → sweep step (List.range' a len) f0 x = target x := by
  induction len with
  | zero =>
    intro a f0 target hlow _ x hx
    rw [List.range'_zero, sweep_nil]
    exact hlow x hx
  | succ len ih =>
    intro a f0 target hlow hstep x hx
    rw [List.range'_succ, sweep_cons]
    have hstepa : step f0 a = target a :=
      hstep f0 a le_rfl (by omega) (fun y hy => hlow y hy) (fun _ _ => rfl)
    refine ih (a + 1) (Function.update f0 a (step f0 a)) target ?_ ?_ x (by omega)
    · intro y hy
      by_cases hya : y = a
      · subst hya; rw [Function.update_same]; exact hstepa
      · rw [Function.update_noteq hya]
        exact hlow y (by omega)
    · intro g l hal hl hdone hrest
      refine hstep g l (by omega) (by omega) hdone ?_
      intro y hy
      rw [hrest y hy]
      exact Function.update_noteq (by omega) _ _

/-- A sweep over a descending index range computes `target` on every cell,
provided cells at or above the top of the range already hold `target` and
each step computes `target l` from the finished cells above `l` and the
untouched cells at or below `l`. -/
theorem sweep_desc_char (step : (ℕ → α) → ℕ → α) (len : ℕ) : ∀ (a : ℕ) (f0 target : ℕ → α),
    (∀ x, a + len ≤ x → f0 x = target x) →
    (∀ g l, a ≤ l → l < a + len →
      (∀ x, l < x → g x = target x) → (∀ x, x ≤ l → g x = f0 x) →
      step g l = target l) →
    ∀ x, a ≤ x → sweep step (List.range' a len).reverse f0 x = target x := by
  induction len with
  | zero =>
    intro a f0 target hhigh _ x hx
    rw [List.range'_zero, List.reverse_nil, sweep_nil]
    exact hhigh x (by omega)
  | succ len ih =>
    intro a f0 target hhigh hstep x hx
    rw [List.range'_concat, List.reverse_append, List.reverse_singleton, List.singleton_append,
      sweep_cons, one_mul]
    have hstepl : step f0 (a + len) = target (a + len) :=
      hstep f0 (a + len) (by omega) (by omega)
        (fun y hy => hhigh y (by omega)) (fun _ _ => rfl)
    refine ih a (Function.update f0 (a + len) (step f0 (a + len))) target ?_ ?_ x hx
    · intro y hy
      by_cases hyl : y = a + len
      · subst hyl; rw [Function.update_same]; exact hstepl
      · rw [Function.update_noteq hyl]
        exact hhigh y (by omega)
    · intro g l hal hl hdone hrest
      refine hstep g l hal (by omega) hdone ?_
      intro y hy
      rw [hrest y hy]
      exact Function.update_noteq (by omega) _ _

/-- Two sweeps over the same index list preserve a pointwise relation
between their rows if every step does. -/
theorem sweep_rel (R : α → β → Prop) (stepA : (ℕ → α) → ℕ → α) (stepB : (ℕ → β) → ℕ → β)
    (idxs : List ℕ) (fA : ℕ → α) (fB : ℕ → β)
    (h0 : ∀ x, R (fA x) (fB x))
    (hstep : ∀ gA gB l, l ∈ idxs → (∀ x, R (gA x) (gB x)) → R (stepA gA l) (stepB gB l)) :
    ∀ x, R (sweep stepA idxs fA x) (sweep stepB idxs fB x) := by
  induction idxs generalizing fA fB with
  | nil => exact h0
  | cons l rest ih =>
    intro x
    rw [sweep_cons, sweep_cons]
    refine ih _ _ ?_ (fun gA gB j hj hR => hstep gA gB j (List.mem_cons_of_mem _ hj) hR) x
    intro y
    by_cases hy : y = l
    · subst hy
      rw [Function.update_same, Function.update_same]
      exact hstep fA fB y (List.mem_cons_self _ _) h0
    · rw [Function.update_noteq hy, Function.update_noteq hy]
      exact h0 y

/-- A sweep preserves a pointwise predicate on rows if every step does. -/
theorem sweep_pred (P : α → Prop) (step : (ℕ → α) → ℕ → α) (idxs : List ℕ) (f0 : ℕ → α)
    (h0 : ∀ x, P (f0 x))
    (hstep : ∀ g l, l ∈ idxs → (∀ x, P (g x)) → P (step g l)) :
    ∀ x, P (sweep step idxs f0 x) := by
  have := sweep_rel (β := α) (fun v _ => P v) step step idxs f0 f0 h0
    (fun gA gB l hl hR => hstep gA l hl hR)
  exact fun x => this x

end SweepLemmas

/-! ## The forward DP kernel (`Model._forward`, yahmm.pyx lines 1869-2008)

Row `0` starts as the indicator of the start state and is closed over
silent transitions from lower-indexed silent states, skipping the start
state itself.  Each later row is produced from the previous row by the
emitting-state recurrence, a first silent pass collecting the freshly
written emitting cells, and a second silent pass adding contributions of
lower-indexed silent cells of the same row.  The per-row log rescaling of
the source and its inversion in the final readback pass cancel exactly in
exact arithmetic and are omitted. -/

/-- Row 0 of the forward table. -/
def fwdRow0 (M : Model) : ℕ → ℚ :=
  sweep
    (fun f l => if l = M.start_index then f l
      else inSum M l (fun k => M.silent_start ≤ k && k < l) f)
    (silentRange M)
    (fun l => if l = M.start_index then 1 else 0)

/-- The emitting-state pass producing row `i+1` from row `prev = f[i]`:
`f[i+1, l] = e[i, l] * Σ_{k in-edges(l)} f[i, k] * w(k, l)` for `l` below
`silent_start`.  Cells at or above `silent_start` are written by the
silent passes before they are read; their value here is the model of the
uninitialized buffer. -/
def fwdEmit (M : Model) (ei : ℕ → ℚ) (prev : ℕ → ℚ) : ℕ → ℚ := fun l =>
  if l < M.silent_start then ei l * inSum M l (fun _ => true) prev else 0

/-- The first silent pass of a forward row: each silent `l` collects the
emitting cells of the same row. -/
def fwdSil1 (M : Model) (ei : ℕ → ℚ) (prev : ℕ → ℚ) : ℕ → ℚ := fun l =>
  if l < M.silent_start then fwdEmit M ei prev l
  else inSum M l (fun k => k < M.silent_start) (fwdEmit M ei prev)

/-- A full forward row step: emitting pass, first silent pass, then the
second silent pass adding lower-indexed silent cells of the same row. -/
def fwdNext (M : Model) (ei : ℕ → ℚ) (prev : ℕ → ℚ) : ℕ → ℚ :=
  sweep
    (fun f l => f l + inSum M l (fun k => M.silent_start ≤ k && k < l) f)
    (silentRange M)
    (fwdSil1 M ei prev)

/-- The forward DP table `f` of `Model._forward` in probability space:
`fwdTable M e t l = exp(f[t, l])` for the emission table
`e t i = exp(states[i].distribution.log_probability(sequence[t]))`. -/
def fwdTable (M : Model) (e : ℕ → ℕ → ℚ) : ℕ → ℕ → ℚ
  | 0 => fwdRow0 M
  | t + 1 => fwdNext M (e t) (fwdTable M e t)

/-! ## The backward DP kernel (`Model._backward`, yahmm.pyx lines 2039-2254)

For a finite model the last row is the indicator of the end state, closed
downward over silent transitions (skipping the end state) and then filled
in for emitting states from the silent cells.  For an infinite model the
last row is `e[n-1, i]` on emitting states and `NEGINF` (probability `0`)
on silent states, and the two closing passes are skipped.  Each earlier
row is produced by a downward silent pass reading the next row's emitting
cells, a second downward silent pass adding higher-indexed silent cells of
the same row, and an emitting pass combining both.  As in the forward
kernel, the self-inverse row rescaling is omitted. -/

/-- The downward silent closing pass of the last backward row of a finite
model, skipping the end state. -/
def bwdSil (M : Model) : ℕ → ℚ :=
  sweep
    (fun f k => if k = M.end_index then f k else outSum M k (fun li => k + 1 ≤ li) f)
    (silentRange M).reverse
    (fun k => if k = M.end_index then 1 else 0)

/-- The last row `b[n]` of the backward table. -/
def bwdInit (M : Model) (e : ℕ → ℕ → ℚ) (n : ℕ) : ℕ → ℚ :=
  if M.finite then
    fun k => if k < M.silent_start then outSum M k (fun li => M.silent_start ≤ li) (bwdSil M)
      else bwdSil M k
  else
    fun i => if i < M.silent_start then e (n - 1) i else 0

/-- First downward silent pass of a backward row step, over the next row's
emitting cells.  Emitting cells of the row buffer are rewritten by the
emitting pass before being read; their value here models the buffer
before that pass. -/
def bwdP1 (M : Model) (ei : ℕ → ℚ) (next : ℕ → ℚ) : ℕ → ℚ := fun k =>
  if k < M.silent_start then 0
  else outSum M k (fun li => li < M.silent_start) (fun li => next li * ei li)

/-- Second downward silent pass, adding transitions to higher-indexed
silent cells of the same row. -/
def bwdP2 (M : Model) (ei : ℕ → ℚ) (next : ℕ → ℚ) : ℕ → ℚ :=
  sweep
    (fun f k => f k + outSum M k (fun li => k + 1 ≤ li) f)
    (silentRange M).reverse
    (bwdP1 M ei next)

/-- A full backward row step producing row `b[i]` from `next = b[i+1]` and
the emission column `ei = e[i]`: the two downward silent passes, then the
emitting pass. -/
def bwdStep (M : Model) (ei : ℕ → ℚ) (next : ℕ → ℚ) : ℕ → ℚ := fun k =>
  if k < M.silent_start then
    outSum M k (fun li => li < M.silent_start) (fun li => next li * ei li) +
      outSum M k (fun li => M.silent_start ≤ li) (bwdP2 M ei next)
  else bwdP2 M ei next k

/-- Auxiliary backward recursion counted by rows above the last:
`bwdAux M e n j` is row `b[n - j]`. -/
def bwdAux (M : Model) (e : ℕ → ℕ → ℚ) (n : ℕ) : ℕ → (ℕ → ℚ)
  | 0 => bwdInit M e n
  | j + 1 => bwdStep M (e (n - (j + 1))) (bwdAux M e n j)

/-- The backward DP table `b` of `Model._backward` in probability space:
`bwdTable M e n i l = exp(b[i, l])`. -/
def bwdTable (M : Model) (e : ℕ → ℕ → ℚ) (n : ℕ) (i : ℕ) : ℕ → ℚ :=
  bwdAux M e n (n - i)

/-- The sequence probability read out of the forward table by
`Model._log_probability` (yahmm.pyx lines 2514-2532), in probability
space: `f[n, end_index]` for a finite model, and the accumulated
`pair_lse` over the emitting states of `f[n, i]` for an infinite one. -/
def log_probability (M : Model) (e : ℕ → ℕ → ℚ) (n : ℕ) : ℚ :=
  if M.finite then fwdTable M e n M.end_index
  else ∑ i ∈ Finset.range M.silent_start, fwdTable M e n i

/-! ## Edge-sum regrouping

The kernels iterate CSR edge ranges; the analysis below regroups those
edge-list sums as sums over state indices weighted by the total
probability `Wmat a b` of the edges from `a` to `b`. -/

/-- Total (non-log) transition probability from state `a` to state `b`:
the sum of the stored probabilities of all edges `a → b`. -/
def Wmat (M : Model) (a b : ℕ) : ℚ :=
  edgeSum M.edges (fun ed => ed.src == a && ed.tgt == b) (fun ed => ed.p)

theorem edgeSum_eq_map_sum (edges : List Edge) (q : Edge → Bool) (g : Edge → ℚ) :
    edgeSum edges q g = (edges.map (fun ed => if q ed then g ed else 0)).sum := by
  induction edges with
  | nil => rfl
  | cons ed rest ih =>
    by_cases hq : q ed
    · simp only [edgeSum, List.filter_cons, hq, if_true, List.map_cons, List.sum_cons]
      rw [← edgeSum, ih]
    · simp only [edgeSum, List.filter_cons, hq, if_false, List.map_cons, List.sum_cons,
        Bool.false_eq_true]
      rw [← edgeSum, ih, zero_add]

theorem list_sum_map_finset_sum (edges : List Edge) (m : ℕ) (G : ℕ → Edge → ℚ) :
    (edges.map (fun ed => ∑ k ∈ Finset.range m, G k ed)).sum =
      ∑ k ∈ Finset.range m, (edges.map (G k)).sum := by
  induction edges with
  | nil => simp
  | cons ed rest ih =>
    simp only [List.map_cons, List.sum_cons, ih, Finset.sum_add_distrib]

theorem edgeSum_congr_pred (edges : List Edge) {q q' : Edge → Bool}
    (h : ∀ ed ∈ edges, q ed = q' ed) (g : Edge → ℚ) :
    edgeSum edges q g = edgeSum edges q' g := by
  unfold edgeSum
  rw [List.filter_congr h]

theorem edgeSum_congr_val (edges : List Edge) (q : Edge → Bool) {g g' : Edge → ℚ}
    (h : ∀ ed ∈ edges, q ed = true → g ed = g' ed) :
    edgeSum edges q g = edgeSum edges q g' := by
  unfold edgeSum
  congr 1
  refine List.map_congr_left ?_
  intro ed hed
  rcases List.mem_filter.mp hed with ⟨hmem, hq⟩
  exact h ed hmem hq

theorem edgeSum_group_src (edges : List Edge) (q : Edge → Bool) (g : Edge → ℚ) (m : ℕ)
    (h : ∀ ed ∈ edges, q ed = true → ed.src < m) :
    edgeSum edges q g = ∑ k ∈ Finset.range m, edgeSum edges (fun ed => ed.src == k && q ed) g := by
  rw [edgeSum_eq_map_sum]
  have hterm : ∀ ed ∈ edges, (if q ed then g ed else 0) =
      ∑ k ∈ Finset.range m, (if (ed.src == k && q ed) then g ed else 0) := by
    intro ed hed
    by_cases hq : q ed
    · simp only [hq, if_true, Bool.and_true, beq_iff_eq]
      rw [Finset.sum_ite_eq (Finset.range m) ed.src (fun _ => g ed)]
      rw [if_pos (Finset.mem_range.mpr (h ed hed hq))]
    · simp [hq]
  calc (edges.map (fun ed => if q ed then g ed else 0)).sum
      = (edges.map (fun ed =>
          ∑ k ∈ Finset.range m, (if (ed.src == k && q ed) then g ed else 0))).sum := by
        apply congrArg
        exact List.map_congr_left hterm
    _ = ∑ k ∈ Finset.range m, (edges.map
          (fun ed => if (ed.src == k && q ed) then g ed else 0)).sum :=
        list_sum_map_finset_sum edges m _
    _ = ∑ k ∈ Finset.range m, edgeSum edges (fun ed => ed.src == k && q ed) g := by
        refine Finset.sum_congr rfl (fun k _ => ?_)
        rw [edgeSum_eq_map_sum]

theorem edgeSum_group_tgt (edges : List Edge) (q : Edge → Bool) (g : Edge → ℚ) (m : ℕ)
    (h : ∀ ed ∈ edges, q ed = true → ed.tgt < m) :
    edgeSum edges q g = ∑ k ∈ Finset.range m, edgeSum edges (fun ed => ed.tgt == k && q ed) g := by
  rw [edgeSum_eq_map_sum]
  have hterm : ∀ ed ∈ edges, (if q ed then g ed else 0) =
      ∑ k ∈ Finset.range m, (if (ed.tgt == k && q ed) then g ed else 0) := by
    intro ed hed
    by_cases hq : q ed
    · simp only [hq, if_true, Bool.and_true, beq_iff_eq]
      rw [Finset.sum_ite_eq (Finset.range m) ed.tgt (fun _ => g ed)]
      rw [if_pos (Finset.mem_range.mpr (h ed hed hq))]
    · simp [hq]
  calc (edges.map (fun ed => if q ed then g ed else 0)).sum
      = (edges.map (fun ed =>
          ∑ k ∈ Finset.range m, (if (ed.tgt == k && q ed) then g ed else 0))).sum := by
        apply congrArg
        exact List.map_congr_left hterm
    _ = ∑ k ∈ Finset.range m, (edges.map
          (fun ed => if (ed.tgt == k && q ed) then g ed else 0)).sum :=
        list_sum_map_finset_sum edges m _
    _ = ∑ k ∈ Finset.range m, edgeSum edges (fun ed => ed.tgt == k && q ed) g := by
        refine Finset.sum_congr rfl (fun k _ => ?_)
        rw [edgeSum_eq_map_sum]

/-- Regrouping of an in-edge accumulation as a sum over source states. -/
theorem inSum_eq_sum (M : Model) (l : ℕ) (keep : ℕ → Bool) (f : ℕ → ℚ)
    (hE : ∀ ed ∈ M.edges, ed.src < M.m) :
    inSum M l keep f =
      ∑ k ∈ Finset.range M.m, (if keep k then f k * Wmat M k l else 0) := by
  unfold inSum
  rw [edgeSum_group_src M.edges _ _ M.m (fun ed hed _ => hE ed hed)]
  refine Finset.sum_congr rfl (fun k _ => ?_)
  by_cases hk : keep k = true
  · rw [if_pos hk]
    have h1 : edgeSum M.edges (fun ed => ed.src == k && (ed.tgt == l && keep ed.src))
        (fun ed => f ed.src * ed.p) =
        edgeSum M.edges (fun ed => ed.src == k && ed.tgt == l) (fun ed => f ed.src * ed.p) := by
      refine edgeSum_congr_pred M.edges ?_ _
      intro ed _
      by_cases hsrc : ed.src = k
      · subst hsrc; simp [hk]
      · have hb : (ed.src == k) = false := by simp [hsrc]
        rw [hb, Bool.false_and, Bool.false_and]
    rw [h1]
    have h2 : edgeSum M.edges (fun ed => ed.src == k && ed.tgt == l)
        (fun ed => f ed.src * ed.p) =
        edgeSum M.edges (fun ed => ed.src == k && ed.tgt == l) (fun ed => f k * ed.p) := by
      refine edgeSum_congr_val M.edges _ ?_
      intro ed _ hq
      simp only [Bool.and_eq_true, beq_iff_eq] at hq
      rw [hq.1]
    rw [h2, Wmat]
    rw [edgeSum_eq_map_sum, edgeSum_eq_map_sum]
    rw [← List.sum_map_mul_left]
    apply congrArg
    refine List.map_congr_left (fun ed _ => ?_)
    by_cases hq : (ed.src == k && ed.tgt == l) = true
    · rw [if_pos hq, if_pos hq]
    · rw [if_neg hq, if_neg hq, mul_zero]
  · rw [if_neg hk]
    have h0 : edgeSum M.edges (fun ed => ed.src == k && (ed.tgt == l && keep ed.src))
        (fun ed => f ed.src * ed.p) =
        edgeSum M.edges (fun _ => false) (fun ed => f ed.src * ed.p) := by
      refine edgeSum_congr_pred M.edges ?_ _
      intro ed _
      by_cases hsrc : ed.src = k
      · subst hsrc
        have hb : keep ed.src = false := Bool.not_eq_true _ ▸ hk
        simp [hb]
      · have hb : (ed.src == k) = false := by simp [hsrc]
        rw [hb, Bool.false_and]
    rw [h0]
    simp [edgeSum]

/-- Regrouping of an out-edge accumulation as a sum over target states. -/
theorem outSum_eq_sum (M : Model) (k : ℕ) (keep : ℕ → Bool) (f : ℕ → ℚ)
    (hE : ∀ ed ∈ M.edges, ed.tgt < M.m) :
    outSum M k keep f =
      ∑ j ∈ Finset.range M.m, (if keep j then f j * Wmat M k j else 0) := by
  unfold outSum
  rw [edgeSum_group_tgt M.edges _ _ M.m (fun ed hed _ => hE ed hed)]
  refine Finset.sum_congr rfl (fun j _ => ?_)
  by_cases hj : keep j = true
  · rw [if_pos hj]
    have h1 : edgeSum M.edges (fun ed => ed.tgt == j && (ed.src == k && keep ed.tgt))
        (fun ed => f ed.tgt * ed.p) =
        edgeSum M.edges (fun ed => ed.src == k && ed.tgt == j) (fun ed => f ed.tgt * ed.p) := by
      refine edgeSum_congr_pred M.edges ?_ _
      intro ed _
      by_cases htgt : ed.tgt = j
      · subst htgt; simp [hj, Bool.and_comm]
      · have hb : (ed.tgt == j) = false := by simp [htgt]
        rw [hb, Bool.false_and, Bool.and_false]
    rw [h1]
    have h2 : edgeSum M.edges (fun ed => ed.src == k && ed.tgt == j)
        (fun ed => f ed.tgt * ed.p) =
        edgeSum M.edges (fun ed => ed.src == k && ed.tgt == j) (fun ed => f j * ed.p) := by
      refine edgeSum_congr_val M.edges _ ?_
      intro ed _ hq
      simp only [Bool.and_eq_true, beq_iff_eq] at hq
      rw [hq.2]
    rw [h2, Wmat]
    rw [edgeSum_eq_map_sum, edgeSum_eq_map_sum]
    rw [← List.sum_map_mul_left]
    apply congrArg
    refine List.map_congr_left (fun ed _ => ?_)
    by_cases hq : (ed.src == k && ed.tgt == j) = true
    · rw [if_pos hq, if_pos hq]
    · rw [if_neg hq, if_neg hq, mul_zero]
  · rw [if_neg hj]
    have h0 : edgeSum M.edges (fun ed => ed.tgt == j && (ed.src == k && keep ed.tgt))
        (fun ed => f ed.tgt * ed.p) =
        edgeSum M.edges (fun _ => false) (fun ed => f ed.tgt * ed.p) := by
      refine edgeSum_congr_pred M.edges ?_ _
      intro ed _
      by_cases htgt : ed.tgt = j
      · subst htgt
        have hb : keep ed.tgt = false := Bool.not_eq_true _ ▸ hj
        simp [hb]
      · have hb : (ed.tgt == j) = false := by simp [htgt]
        rw [hb, Bool.false_and]
    rw [h0]
    simp [edgeSum]

/-- If every edge source is a valid state index, rows of `Wmat` outside the
state range vanish. -/
theorem Wmat_src_oob (M : Model) (a b : ℕ) (hE : ∀ ed ∈ M.edges, ed.src < M.m)
    (ha : M.m ≤ a) : Wmat M a b = 0 := by
  unfold Wmat
  have h0 : edgeSum M.edges (fun ed => ed.src == a && ed.tgt == b) (fun ed => ed.p) =
      edgeSum M.edges (fun _ => false) (fun ed => ed.p) := by
    refine edgeSum_congr_pred M.edges ?_ _
    intro ed hed
    have hne : ed.src ≠ a := fun h => absurd (h ▸ hE ed hed) (by omega)
    have hb : (ed.src == a) = false := by simp [hne]
    rw [hb, Bool.false_and]
  rw [h0]
  simp [edgeSum]

/-! ## Matrix view of the compiled model

State-indexed "matrices" are plain functions `ℕ → ℕ → ℚ`; products sum
over the valid state indices `Finset.range M.m`.  `Umat` keeps the
transitions between silent states that go strictly upward in index (the
only silent-silent transitions either DP kernel reads), `Vmat` the
transitions from emitting into silent states, and `Nmat` is the
silent-chain closure `I + U + U² + ⋯` (a finite sum: `Umat` is nilpotent
because its entries move strictly upward). -/

def mulM (M : Model) (A B : ℕ → ℕ → ℚ) : ℕ → ℕ → ℚ :=
  fun a b => ∑ j ∈ Finset.range M.m, A a j * B j b

/-- Row vector times matrix. -/
def vmul (M : Model) (x : ℕ → ℚ) (A : ℕ → ℕ → ℚ) : ℕ → ℚ :=
  fun b => ∑ j ∈ Finset.range M.m, x j * A j b

/-- Matrix times column vector. -/
def mvec (M : Model) (A : ℕ → ℕ → ℚ) (v : ℕ → ℚ) : ℕ → ℚ :=
  fun a => ∑ j ∈ Finset.range M.m, A a j * v j

/-- Pairing of a row vector with a column vector. -/
def dotM (M : Model) (x y : ℕ → ℚ) : ℚ :=
  ∑ j ∈ Finset.range M.m, x j * y j

def idMat : ℕ → ℕ → ℚ := fun a b => if a = b then 1 else 0

/-- Upward transitions between silent states. -/
def Umat (M : Model) : ℕ → ℕ → ℚ := fun a b =>
  if M.silent_start ≤ a ∧ M.silent_start ≤ b ∧ a < b then Wmat M a b else 0

/-- Transitions from emitting states into silent states. -/
def Vmat (M : Model) : ℕ → ℕ → ℚ := fun a b =>
  if a < M.silent_start ∧ M.silent_start ≤ b then Wmat M a b else 0

/-- Projection onto the silent states. -/
def PsMat (M : Model) : ℕ → ℕ → ℚ := fun a b =>
  if a = b ∧ M.silent_start ≤ a then 1 else 0

/-- Projection onto the emitting states. -/
def PeMat (M : Model) : ℕ → ℕ → ℚ := fun a b =>
  if a = b ∧ a < M.silent_start then 1 else 0

/-- Diagonal matrix of one emission column, supported on emitting states. -/
def Emat (M : Model) (ei : ℕ → ℚ) : ℕ → ℕ → ℚ := fun a b =>
  if a = b ∧ a < M.silent_start then ei a else 0

def Upow (M : Model) : ℕ → (ℕ → ℕ → ℚ)
  | 0 => idMat
  | k + 1 => mulM M (Umat M) (Upow M k)

/-- The silent-chain closure `∑_{k < m} U^k`. -/
def Nmat (M : Model) : ℕ → ℕ → ℚ := fun a b =>
  ∑ k ∈ Finset.range M.m, Upow M k a b

/-- The one-time-step transfer matrix `W · E` of emission column `ei`. -/
def Pmat (M : Model) (ei : ℕ → ℚ) : ℕ → ℕ → ℚ := mulM M (Wmat M) (Emat M ei)

/-- The forward silent-closure operator `I + V·N` applied on the right of a
freshly emitted row. -/
def M1mat (M : Model) : ℕ → ℕ → ℚ := fun a b =>
  idMat a b + mulM M (Vmat M) (Nmat M) a b

/-- The backward closure operator `Pe + (V + Ps)·N·Ps`. -/
def M2mat (M : Model) : ℕ → ℕ → ℚ := fun a b =>
  PeMat M a b + mulM M (fun x y => Vmat M x y + PsMat M x y) (mulM M (Nmat M) (PsMat M)) a b

/-- The column vector `(V + Ps)·N·δ_end` that the backward initialization
row computes. -/
def bvecN (M : Model) : ℕ → ℚ := fun j =>
  ∑ k ∈ Finset.range M.m, (Vmat M j k + PsMat M j k) * Nmat M k M.end_index

theorem vmul_mulM (M : Model) (x : ℕ → ℚ) (A B : ℕ → ℕ → ℚ) (b : ℕ) :
    vmul M x (mulM M A B) b = vmul M (vmul M x A) B b := by
  unfold vmul mulM
  simp only [Finset.mul_sum, Finset.sum_mul]
  rw [Finset.sum_comm]
  exact Finset.sum_congr rfl (fun k _ => Finset.sum_congr rfl (fun j _ => by ring))

theorem mvec_mulM (M : Model) (A B : ℕ → ℕ → ℚ) (v : ℕ → ℚ) (a : ℕ) :
    mvec M (mulM M A B) v a = mvec M A (mvec M B v) a := by
  unfold mvec mulM
  simp only [Finset.mul_sum, Finset.sum_mul]
  rw [Finset.sum_comm]
  exact Finset.sum_congr rfl (fun k _ => Finset.sum_congr rfl (fun j _ => by ring))

theorem mulM_assoc (M : Model) (A B C : ℕ → ℕ → ℚ) (a b : ℕ) :
    mulM M A (mulM M B C) a b = mulM M (mulM M A B) C a b := by
  unfold mulM
  simp only [Finset.mul_sum, Finset.sum_mul]
  rw [Finset.sum_comm]
  exact Finset.sum_congr rfl (fun k _ => Finset.sum_congr rfl (fun j _ => by ring))

theorem dotM_mvec (M : Model) (x : ℕ → ℚ) (A : ℕ → ℕ → ℚ) (v : ℕ → ℚ) :
    dotM M x (mvec M A v) = dotM M (vmul M x A) v := by
  unfold dotM mvec vmul
  simp only [Finset.mul_sum, Finset.sum_mul]
  rw [Finset.sum_comm]
  exact Finset.sum_congr rfl (fun k _ => Finset.sum_congr rfl (fun j _ => by ring))

theorem mulM_congr_right (M : Model) (A : ℕ → ℕ → ℚ) {B B' : ℕ → ℕ → ℚ}
    (h : ∀ j b, B j b = B' j b) (a b : ℕ) :
    mulM M A B a b = mulM M A B' a b :=
  Finset.sum_congr rfl (fun j _ => by rw [h j b])

/-- Support of the powers of `Umat`: a nonzero `U^k` entry with `k ≥ 1`
joins silent states strictly `k` apart upward. -/
theorem Upow_support (M : Model) : ∀ (k a b : ℕ), Upow M k a b ≠ 0 →
    (k = 0 ∧ a = b) ∨
      (M.silent_start ≤ a ∧ M.silent_start ≤ b ∧ a + k ≤ b) := by
  intro k
  induction k with
  | zero =>
    intro a b h
    left
    refine ⟨rfl, ?_⟩
    by_contra hab
    exact h (by simp [Upow, idMat, hab])
  | succ k ih =>
    intro a b h
    have h' : (∑ j ∈ Finset.range M.m, Umat M a j * Upow M k j b) ≠ 0 := h
    rcases Finset.exists_ne_zero_of_sum_ne_zero h' with ⟨j, _, hj⟩
    have hU : Umat M a j ≠ 0 := fun h0 => hj (by rw [h0, zero_mul])
    have hP : Upow M k j b ≠ 0 := fun h0 => hj (by rw [h0, mul_zero])
    have hUc : M.silent_start ≤ a ∧ M.silent_start ≤ j ∧ a < j := by
      by_contra hc
      exact hU (by simp [Umat, hc])
    rcases ih j b hP with ⟨_, hjb⟩ | ⟨_, hsb, hjb⟩
    · right
      exact ⟨hUc.1, hjb ▸ hUc.2.1, by omega⟩
    · right
      exact ⟨hUc.1, hsb, by omega⟩

theorem Nmat_lower (M : Model) {a b : ℕ} (hba : b < a) : Nmat M a b = 0 := by
  unfold Nmat
  refine Finset.sum_eq_zero (fun k _ => ?_)
  by_contra h
  rcases Upow_support M k a b h with ⟨_, hab⟩ | ⟨_, _, hab⟩ <;> omega

theorem Nmat_diag (M : Model) {a : ℕ} (ha : a < M.m) : Nmat M a a = 1 := by
  unfold Nmat
  rw [Finset.sum_eq_single 0]
  · simp [Upow, idMat]
  · intro k _ hk
    by_contra h
    rcases Upow_support M k a a h with ⟨hk0, _⟩ | ⟨_, _, hab⟩
    · exact hk hk0
    · omega
  · intro h
    exact absurd (Finset.mem_range.mpr (by omega)) h

/-- Columns of `Nmat` at emitting states are identity columns. -/
theorem Nmat_emit_col (M : Model) {a b : ℕ} (hb : b < M.silent_start) (hm : b < M.m) :
    Nmat M a b = if a = b then 1 else 0 := by
  by_cases hab : a = b
  · subst hab
    rw [if_pos rfl]
    exact Nmat_diag M hm
  · rw [if_neg hab]
    unfold Nmat
    refine Finset.sum_eq_zero (fun k _ => ?_)
    by_contra h
    rcases Upow_support M k a b h with ⟨_, hab'⟩ | ⟨_, hsb, _⟩
    · exact hab hab'
    · omega

/-- Rows of `Nmat` at emitting states are identity rows. -/
theorem Nmat_emit_row (M : Model) {a b : ℕ} (ha : a < M.silent_start) (hm : a < M.m) :
    Nmat M a b = if a = b then 1 else 0 := by
  by_cases hab : a = b
  · subst hab
    rw [if_pos rfl]
    exact Nmat_diag M hm
  · rw [if_neg hab]
    unfold Nmat
    refine Finset.sum_eq_zero (fun k _ => ?_)
    by_contra h
    rcases Upow_support M k a b h with ⟨_, hab'⟩ | ⟨hsa, _, _⟩
    · exact hab hab'
    · omega

theorem Upow_top (M : Model) {a b : ℕ} (hb : b < M.m) : Upow M M.m a b = 0 := by
  by_contra h
  rcases Upow_support M M.m a b h with ⟨hm0, _⟩ | ⟨_, _, hab⟩
  · omega
  · omega

/-- Left recurrence of the silent closure: `N = I + U·N` on valid columns. -/
theorem Nmat_rec_left (M : Model) (a : ℕ) {b : ℕ} (hb : b < M.m) :
    Nmat M a b = idMat a b + mulM M (Umat M) (Nmat M) a b := by
  have hswap : mulM M (Umat M) (Nmat M) a b =
      ∑ k ∈ Finset.range M.m, Upow M (k + 1) a b := by
    unfold mulM Nmat
    simp only [Finset.mul_sum]
    rw [Finset.sum_comm]
    exact Finset.sum_congr rfl (fun k _ => rfl)
  have hext : ∑ k ∈ Finset.range (M.m + 1), Upow M k a b = Nmat M a b := by
    rw [Finset.sum_range_succ]
    rw [Upow_top M hb, add_zero]
    rfl
  have hsplit : ∑ k ∈ Finset.range (M.m + 1), Upow M k a b =
      Upow M 0 a b + ∑ k ∈ Finset.range M.m, Upow M (k + 1) a b := by
    rw [Finset.sum_range_succ']
    rw [add_comm]
  have hid : idMat a b = Upow M 0 a b := rfl
  rw [hswap, hid, ← hsplit, hext]

theorem Wmat_tgt_oob (M : Model) (a b : ℕ) (hE : ∀ ed ∈ M.edges, ed.tgt < M.m)
    (hb : M.m ≤ b) : Wmat M a b = 0 := by
  unfold Wmat
  have h0 : edgeSum M.edges (fun ed => ed.src == a && ed.tgt == b) (fun ed => ed.p) =
      edgeSum M.edges (fun _ => false) (fun ed => ed.p) := by
    refine edgeSum_congr_pred M.edges ?_ _
    intro ed hed
    have hne : ed.tgt ≠ b := fun h => absurd (h ▸ hE ed hed) (by omega)
    have hbb : (ed.tgt == b) = false := by simp [hne]
    rw [hbb, Bool.and_false]
  rw [h0]
  simp [edgeSum]

theorem Umat_oob (M : Model) (a b : ℕ)
    (hE : ∀ ed ∈ M.edges, ed.src < M.m ∧ ed.tgt < M.m)
    (h : M.m ≤ a ∨ M.m ≤ b) : Umat M a b = 0 := by
  unfold Umat
  rcases h with ha | hb
  · split
    · exact Wmat_src_oob M a b (fun ed hed => (hE ed hed).1) ha
    · rfl
  · split
    · exact Wmat_tgt_oob M a b (fun ed hed => (hE ed hed).2) hb
    · rfl

theorem Upow_succ_right (M : Model)
    (hE : ∀ ed ∈ M.edges, ed.src < M.m ∧ ed.tgt < M.m) :
    ∀ (k a b : ℕ), Upow M (k + 1) a b = mulM M (Upow M k) (Umat M) a b := by
  intro k
  induction k with
  | zero =>
    intro a b
    show mulM M (Umat M) idMat a b = mulM M idMat (Umat M) a b
    unfold mulM idMat
    simp only [mul_ite, mul_one, mul_zero, ite_mul, one_mul, zero_mul]
    rw [Finset.sum_ite_eq' (Finset.range M.m) b (fun j => Umat M a j),
      Finset.sum_ite_eq (Finset.range M.m) a (fun j => Umat M j b)]
    rcases Nat.lt_or_ge a M.m with ha | ha <;> rcases Nat.lt_or_ge b M.m with hb | hb
    · rw [if_pos (Finset.mem_range.mpr hb), if_pos (Finset.mem_range.mpr ha)]
    · rw [if_neg (fun hc => absurd (Finset.mem_range.mp hc) (by omega)),
        if_pos (Finset.mem_range.mpr ha), Umat_oob M a b hE (Or.inr hb)]
    · rw [if_pos (Finset.mem_range.mpr hb),
        if_neg (fun hc => absurd (Finset.mem_range.mp hc) (by omega)),
        Umat_oob M a b hE (Or.inl ha)]
    · rw [if_neg (fun hc => absurd (Finset.mem_range.mp hc) (by omega)),
        if_neg (fun hc => absurd (Finset.mem_range.mp hc) (by omega))]
  | succ k ih =>
    intro a b
    show mulM M (Umat M) (Upow M (k + 1)) a b = mulM M (Upow M (k + 1)) (Umat M) a b
    have h1 : mulM M (Umat M) (Upow M (k + 1)) a b =
        mulM M (Umat M) (mulM M (Upow M k) (Umat M)) a b :=
      mulM_congr_right M (Umat M) (fun j b' => ih j b') a b
    have h2 : mulM M (Upow M (k + 1)) (Umat M) a b =
        mulM M (mulM M (Umat M) (Upow M k)) (Umat M) a b := rfl
    rw [h1, h2, mulM_assoc]

/-- Right recurrence of the silent closure: `N = I + N·U` on valid columns,
for a model with in-range edge endpoints. -/
theorem Nmat_rec_right (M : Model) (a : ℕ) {b : ℕ} (hb : b < M.m)
    (hE : ∀ ed ∈ M.edges, ed.src < M.m ∧ ed.tgt < M.m) :
    Nmat M a b = idMat a b + mulM M (Nmat M) (Umat M) a b := by
  have hswap : mulM M (Nmat M) (Umat M) a b =
      ∑ k ∈ Finset.range M.m, Upow M (k + 1) a b := by
    unfold mulM Nmat
    simp only [Finset.sum_mul]
    rw [Finset.sum_comm]
    refine Finset.sum_congr rfl (fun k _ => ?_)
    rw [Upow_succ_right M hE k a b]
    rfl
  have hext : ∑ k ∈ Finset.range (M.m + 1), Upow M k a b = Nmat M a b := by
    rw [Finset.sum_range_succ]
    rw [Upow_top M hb, add_zero]
    rfl
  have hsplit : ∑ k ∈ Finset.range (M.m + 1), Upow M k a b =
      Upow M 0 a b + ∑ k ∈ Finset.range M.m, Upow M (k + 1) a b := by
    rw [Finset.sum_range_succ']
    rw [add_comm]
  have hid : idMat a b = Upow M 0 a b := rfl
  rw [hswap, hid, ← hsplit, hext]

/-! ## Bridges between the DP sweeps and the matrix forms -/

/-- Row 0 of the forward table is the start row of the silent closure. -/
theorem fwdRow0_eq (M : Model)
    (hE : ∀ ed ∈ M.edges, ed.src < M.m ∧ ed.tgt < M.m)
    (hssm : M.silent_start ≤ M.m)
    (hs1 : M.silent_start ≤ M.start_index) (hs2 : M.start_index < M.m) :
    ∀ b, b < M.m → fwdRow0 M b = Nmat M M.start_index b := by
  have hmain := sweep_asc_char
    (fun f l => if l = M.start_index then f l
      else inSum M l (fun k => M.silent_start ≤ k && k < l) f)
    (M.m - M.silent_start) M.silent_start
    (fun l => if l = M.start_index then 1 else 0)
    (fun x => Nmat M M.start_index x)
    (by
      intro x hx
      dsimp only
      have hxs : x ≠ M.start_index := by omega
      rw [if_neg hxs, Nmat_emit_col M hx (by omega)]
      rw [if_neg (by omega)])
    (by
      intro g l hal hl hdone hrest
      dsimp only at hdone hrest ⊢
      by_cases hls : l = M.start_index
      · rw [if_pos hls, hrest l le_rfl, if_pos hls, hls]
        exact (Nmat_diag M hs2).symm
      · rw [if_neg hls]
        rw [inSum_eq_sum M l _ g (fun ed hed => (hE ed hed).1)]
        have hlm : l < M.m := by omega
        rw [Nmat_rec_right M M.start_index hlm hE]
        have hid0 : idMat M.start_index l = 0 := by
          unfold idMat
          rw [if_neg (fun h => hls h.symm)]
        rw [hid0, zero_add]
        unfold mulM Umat
        refine Finset.sum_congr rfl (fun k hk => ?_)
        by_cases hc : M.silent_start ≤ k ∧ k < l
        · rw [if_pos (by
            simp only [Bool.and_eq_true, decide_eq_true_eq]
            exact hc)]
          rw [if_pos ⟨hc.1, by omega, hc.2⟩, hdone k hc.2]
        · rw [if_neg (by
            simp only [Bool.and_eq_true, decide_eq_true_eq]
            exact hc)]
          rw [if_neg (fun hcc => hc ⟨hcc.1, hcc.2.2⟩), mul_zero])
  intro b hb
  have hm : M.silent_start + (M.m - M.silent_start) = M.m := by omega
  unfold fwdRow0 silentRange
  exact hmain b (by omega)

/-- Entries of the one-step transfer matrix `W·E`. -/
theorem Pmat_eq (M : Model) (ei : ℕ → ℚ) (hssm : M.silent_start ≤ M.m) (j b : ℕ) :
    Pmat M ei j b = if b < M.silent_start then Wmat M j b * ei b else 0 := by
  unfold Pmat mulM Emat
  by_cases hb : b < M.silent_start
  · rw [if_pos hb]
    rw [Finset.sum_eq_single b]
    · rw [if_pos ⟨rfl, hb⟩]
    · intro k _ hk
      rw [if_neg (fun hc => hk hc.1), mul_zero]
    · intro hbm
      exact absurd (Finset.mem_range.mpr (by omega)) hbm
  · rw [if_neg hb]
    refine Finset.sum_eq_zero (fun k _ => ?_)
    rw [if_neg (fun hc : k = b ∧ k < M.silent_start => hb (hc.1 ▸ hc.2)), mul_zero]

/-- The emitting pass of a forward row step is the previous row times the
transfer matrix. -/
theorem fwdEmit_eq (M : Model) (ei prev : ℕ → ℚ)
    (hE : ∀ ed ∈ M.edges, ed.src < M.m ∧ ed.tgt < M.m)
    (hssm : M.silent_start ≤ M.m) :
    ∀ b, fwdEmit M ei prev b = vmul M prev (Pmat M ei) b := by
  intro b
  unfold fwdEmit vmul
  by_cases hb : b < M.silent_start
  · rw [if_pos hb]
    rw [inSum_eq_sum M b _ prev (fun ed hed => (hE ed hed).1)]
    have hP : ∀ j, Pmat M ei j b = Wmat M j b * ei b := by
      intro j
      rw [Pmat_eq M ei hssm j b, if_pos hb]
    calc ei b * ∑ k ∈ Finset.range M.m, (if true then prev k * Wmat M k b else 0)
        = ∑ k ∈ Finset.range M.m, prev k * (Wmat M k b * ei b) := by
          rw [Finset.mul_sum]
          exact Finset.sum_congr rfl (fun k _ => by rw [if_pos rfl]; ring)
      _ = ∑ j ∈ Finset.range M.m, prev j * Pmat M ei j b :=
          Finset.sum_congr rfl (fun j _ => by rw [hP j])
  · rw [if_neg hb]
    refine Eq.symm (Finset.sum_eq_zero (fun j _ => ?_))
    rw [Pmat_eq M ei hssm j b, if_neg hb, mul_zero]

/-- A freshly emitted row vanishes on silent states. -/
theorem vmul_Pmat_silent (M : Model) (ei prev : ℕ → ℚ) (hssm : M.silent_start ≤ M.m)
    {b : ℕ} (hb : M.silent_start ≤ b) : vmul M prev (Pmat M ei) b = 0 := by
  unfold vmul
  refine Finset.sum_eq_zero (fun j _ => ?_)
  rw [Pmat_eq M ei hssm j b, if_neg (by omega), mul_zero]

theorem vmul_M1_split (M : Model) (ψ : ℕ → ℚ) {x : ℕ} (hx : x < M.m) :
    vmul M ψ (M1mat M) x = ψ x + vmul M ψ (mulM M (Vmat M) (Nmat M)) x := by
  unfold vmul M1mat
  simp only [mul_add]
  rw [Finset.sum_add_distrib]
  congr 1
  unfold idMat
  simp only [mul_ite, mul_one, mul_zero]
  rw [Finset.sum_ite_eq' (Finset.range M.m) x ψ]
  rw [if_pos (Finset.mem_range.mpr hx)]

/-- A forward row step equals the fresh emitting row closed by `I + V·N`. -/
theorem fwdNext_eq (M : Model) (ei prev : ℕ → ℚ)
    (hE : ∀ ed ∈ M.edges, ed.src < M.m ∧ ed.tgt < M.m)
    (hssm : M.silent_start ≤ M.m) :
    ∀ b, b < M.m →
      fwdNext M ei prev b = vmul M (vmul M prev (Pmat M ei)) (M1mat M) b := by
  set ψ := vmul M prev (Pmat M ei) with hψ
  have hψ0 : ∀ b, M.silent_start ≤ b → ψ b = 0 :=
    fun b hb => vmul_Pmat_silent M ei prev hssm hb
  have hemit : ∀ b, fwdEmit M ei prev b = ψ b := fwdEmit_eq M ei prev hE hssm
  have hVN_emit : ∀ x, x < M.silent_start → x < M.m →
      vmul M ψ (mulM M (Vmat M) (Nmat M)) x = 0 := by
    intro x hx hxm
    unfold vmul
    refine Finset.sum_eq_zero (fun j _ => ?_)
    have hVN : mulM M (Vmat M) (Nmat M) j x = 0 := by
      unfold mulM
      refine Finset.sum_eq_zero (fun k _ => ?_)
      rw [Nmat_emit_col M hx hxm]
      by_cases hkx : k = x
      · subst hkx
        rw [if_pos rfl, mul_one]
        unfold Vmat
        rw [if_neg (fun hc => absurd hc.2 (by omega))]
      · rw [if_neg hkx, mul_zero]
    rw [hVN, mul_zero]
  have hmain := sweep_asc_char
    (fun f l => f l + inSum M l (fun k => M.silent_start ≤ k && k < l) f)
    (M.m - M.silent_start) M.silent_start
    (fwdSil1 M ei prev)
    (fun x => vmul M ψ (M1mat M) x)
    (by
      intro x hx
      dsimp only
      unfold fwdSil1
      rw [if_pos hx, hemit x]
      rw [vmul_M1_split M ψ (by omega)]
      rw [hVN_emit x hx (by omega), add_zero])
    (by
      intro g l hal hl hdone hrest
      dsimp only at hdone hrest ⊢
      have hlm : l < M.m := by omega
      have e1 : g l = ∑ j ∈ Finset.range M.m, ψ j * Vmat M j l := by
        rw [hrest l le_rfl]
        unfold fwdSil1
        rw [if_neg (by omega)]
        rw [inSum_eq_sum M l _ _ (fun ed hed => (hE ed hed).1)]
        refine Finset.sum_congr rfl (fun k _ => ?_)
        by_cases hk : k < M.silent_start
        · rw [if_pos (by simpa using hk), hemit k]
          unfold Vmat
          rw [if_pos ⟨hk, hal⟩]
        · rw [if_neg (by simpa using hk)]
          unfold Vmat
          rw [if_neg (fun hc => hk hc.1), mul_zero]
      have hNsplit : ∀ k, Nmat M k l = idMat k l + mulM M (Nmat M) (Umat M) k l :=
        fun k => Nmat_rec_right M k hlm hE
      have step1 : ∀ j, mulM M (Vmat M) (Nmat M) j l =
          Vmat M j l + mulM M (mulM M (Vmat M) (Nmat M)) (Umat M) j l := by
        intro j
        have ha : mulM M (Vmat M) (Nmat M) j l =
            ∑ k ∈ Finset.range M.m, (Vmat M j k * idMat k l +
              Vmat M j k * mulM M (Nmat M) (Umat M) k l) := by
          refine Finset.sum_congr rfl (fun k _ => ?_)
          rw [hNsplit k, mul_add]
        rw [ha, Finset.sum_add_distrib]
        congr 1
        · simp only [idMat, mul_ite, mul_one, mul_zero]
          rw [Finset.sum_ite_eq' (Finset.range M.m) l (fun k => Vmat M j k)]
          rw [if_pos (Finset.mem_range.mpr hlm)]
        · rw [← mulM_assoc M (Vmat M) (Nmat M) (Umat M) j l]
          rfl
      have key : vmul M ψ (mulM M (Vmat M) (Nmat M)) l =
          (∑ j ∈ Finset.range M.m, ψ j * Vmat M j l) +
            ∑ q ∈ Finset.range M.m,
              vmul M ψ (mulM M (Vmat M) (Nmat M)) q * Umat M q l := by
        have ha : vmul M ψ (mulM M (Vmat M) (Nmat M)) l =
            ∑ j ∈ Finset.range M.m, (ψ j * Vmat M j l +
              ψ j * mulM M (mulM M (Vmat M) (Nmat M)) (Umat M) j l) := by
          refine Finset.sum_congr rfl (fun j _ => ?_)
          rw [step1 j, mul_add]
        rw [ha, Finset.sum_add_distrib]
        congr 1
        have hb2 : (∑ j ∈ Finset.range M.m,
            ψ j * mulM M (mulM M (Vmat M) (Nmat M)) (Umat M) j l) =
            vmul M (vmul M ψ (mulM M (Vmat M) (Nmat M))) (Umat M) l := by
          rw [← vmul_mulM]
          rfl
        rw [hb2]
        rfl
      have e2 : inSum M l (fun k => M.silent_start ≤ k && k < l) g =
          ∑ q ∈ Finset.range M.m,
            vmul M ψ (mulM M (Vmat M) (Nmat M)) q * Umat M q l := by
        rw [inSum_eq_sum M l _ _ (fun ed hed => (hE ed hed).1)]
        refine Finset.sum_congr rfl (fun q hq => ?_)
        by_cases hc : M.silent_start ≤ q ∧ q < l
        · rw [if_pos (by
            simp only [Bool.and_eq_true, decide_eq_true_eq]
            exact hc)]
          rw [hdone q hc.2]
          rw [vmul_M1_split M ψ (Finset.mem_range.mp hq)]
          rw [hψ0 q hc.1, zero_add]
          unfold Umat
          rw [if_pos ⟨hc.1, hal, hc.2⟩]
        · rw [if_neg (by
            simp only [Bool.and_eq_true, decide_eq_true_eq]
            exact hc)]
          unfold Umat
          rw [if_neg (fun hcc => hc ⟨hcc.1, hcc.2.2⟩), mul_zero]
      rw [e1, e2, vmul_M1_split M ψ hlm, hψ0 l hal, zero_add, key])
  intro b hb
  unfold fwdNext silentRange
  exact hmain b (by omega)

/-- The downward closing pass of the finite backward initialization
computes the end column of the silent closure. -/
theorem bwdSil_eq (M : Model)
    (hE : ∀ ed ∈ M.edges, ed.src < M.m ∧ ed.tgt < M.m)
    (hssm : M.silent_start ≤ M.m)
    (he1 : M.silent_start ≤ M.end_index) (he2 : M.end_index < M.m) :
    ∀ x, M.silent_start ≤ x → bwdSil M x = Nmat M x M.end_index := by
  have hmain := sweep_desc_char
    (fun f k => if k = M.end_index then f k else outSum M k (fun li => k + 1 ≤ li) f)
    (M.m - M.silent_start) M.silent_start
    (fun k => if k = M.end_index then 1 else 0)
    (fun x => Nmat M x M.end_index)
    (by
      intro x hx
      dsimp only
      have hxe : x ≠ M.end_index := by omega
      rw [if_neg hxe, Nmat_lower M (by omega)])
    (by
      intro g l hal hl hdone hrest
      dsimp only at hdone hrest ⊢
      by_cases hle : l = M.end_index
      · rw [if_pos hle, hrest l le_rfl, if_pos hle, hle]
        exact (Nmat_diag M he2).symm
      · rw [if_neg hle]
        rw [outSum_eq_sum M l _ g (fun ed hed => (hE ed hed).2)]
        rw [Nmat_rec_left M l he2]
        have hid0 : idMat l M.end_index = 0 := by
          unfold idMat
          rw [if_neg hle]
        rw [hid0, zero_add]
        unfold mulM Umat
        refine Finset.sum_congr rfl (fun j _ => ?_)
        by_cases hc : l + 1 ≤ j
        · rw [if_pos (by simpa using hc)]
          rw [hdone j (by omega)]
          rw [if_pos ⟨hal, by omega, by omega⟩]
          ring
        · rw [if_neg (by simpa using hc)]
          rw [if_neg (fun hcc => hc (by omega)), zero_mul]
      )
  intro x hx
  unfold bwdSil silentRange
  exact hmain x hx

/-- The finite backward initialization row is `(V + Ps)·N·δ_end`. -/
theorem bwdInit_eq (M : Model) (e : ℕ → ℕ → ℚ) (n : ℕ)
    (hfin : M.finite = true)
    (hE : ∀ ed ∈ M.edges, ed.src < M.m ∧ ed.tgt < M.m)
    (hssm : M.silent_start ≤ M.m)
    (he1 : M.silent_start ≤ M.end_index) (he2 : M.end_index < M.m) :
    ∀ j, j < M.m → bwdInit M e n j = bvecN M j := by
  intro j hj
  have hsil := bwdSil_eq M hE hssm he1 he2
  unfold bwdInit
  rw [hfin]
  rw [if_pos rfl]
  by_cases hjs : j < M.silent_start
  · rw [if_pos hjs]
    rw [outSum_eq_sum M j _ _ (fun ed hed => (hE ed hed).2)]
    unfold bvecN
    refine Finset.sum_congr rfl (fun k hk => ?_)
    by_cases hks : M.silent_start ≤ k
    · rw [if_pos (by simpa using hks), hsil k hks]
      unfold Vmat PsMat
      rw [if_pos ⟨hjs, hks⟩, if_neg (fun hc => absurd hc.2 (by omega)), add_zero]
      ring
    · rw [if_neg (by simpa using hks)]
      unfold Vmat PsMat
      rw [if_neg (fun hc => hks hc.2), if_neg (fun hc => absurd hc.2 (by omega)),
        add_zero, zero_mul]
  · rw [if_neg hjs]
    rw [hsil j (by omega)]
    unfold bvecN Vmat PsMat
    rw [Finset.sum_eq_single j]
    · rw [if_neg (fun hc => hjs hc.1), if_pos ⟨rfl, by omega⟩, zero_add, one_mul]
    · intro k _ hkj
      rw [if_neg (fun hc => hjs hc.1), if_neg (fun hc => hkj hc.1.symm), add_zero, zero_mul]
    · intro hjm
      exact absurd (Finset.mem_range.mpr hj) hjm

theorem outSum_src_oob (M : Model) (k : ℕ) (keep : ℕ → Bool) (f : ℕ → ℚ)
    (hE : ∀ ed ∈ M.edges, ed.src < M.m) (hk : M.m ≤ k) :
    outSum M k keep f = 0 := by
  unfold outSum
  have h0 : edgeSum M.edges (fun ed => ed.src == k && keep ed.tgt)
      (fun ed => f ed.tgt * ed.p) =
      edgeSum M.edges (fun _ => false) (fun ed => f ed.tgt * ed.p) := by
    refine edgeSum_congr_pred M.edges ?_ _
    intro ed hed
    have hne : ed.src ≠ k := fun h => absurd (h ▸ hE ed hed) (by omega)
    have hb : (ed.src == k) = false := by simp [hne]
    rw [hb, Bool.false_and]
  rw [h0]
  simp [edgeSum]

theorem NPs_eq (M : Model) (q k : ℕ) (hk : k < M.m) :
    mulM M (Nmat M) (PsMat M) q k = if M.silent_start ≤ k then Nmat M q k else 0 := by
  unfold mulM PsMat
  rw [Finset.sum_eq_single k]
  · by_cases hks : M.silent_start ≤ k
    · rw [if_pos ⟨rfl, hks⟩, if_pos hks, mul_one]
    · rw [if_neg (fun hc => hks hc.2), if_neg hks, mul_zero]
  · intro t _ htk
    rw [if_neg (fun hc => htk hc.1), mul_zero]
  · intro hkm
    exact absurd (Finset.mem_range.mpr hk) hkm

/-- Rows of `M2mat` at silent states are masked rows of the closure. -/
theorem M2_row_silent (M : Model) {j : ℕ} (hj1 : M.silent_start ≤ j) (hj2 : j < M.m)
    (k : ℕ) (hk : k < M.m) :
    M2mat M j k = if M.silent_start ≤ k then Nmat M j k else 0 := by
  have h1 : M2mat M j k = ∑ q ∈ Finset.range M.m,
      (Vmat M j q + PsMat M j q) * mulM M (Nmat M) (PsMat M) q k := by
    unfold M2mat PeMat
    rw [if_neg (fun hc : j = k ∧ j < M.silent_start => absurd hc.2 (by omega)), zero_add]
    rfl
  have h2 : (∑ q ∈ Finset.range M.m,
      (Vmat M j q + PsMat M j q) * mulM M (Nmat M) (PsMat M) q k) =
      mulM M (Nmat M) (PsMat M) j k := by
    rw [Finset.sum_eq_single j]
    · have hV : Vmat M j j = 0 := by
        unfold Vmat
        exact if_neg (fun hc => absurd hc.1 (by omega))
      have hPs : PsMat M j j = 1 := by
        unfold PsMat
        exact if_pos ⟨rfl, hj1⟩
      rw [hV, hPs, zero_add, one_mul]
    · intro q _ hqj
      have hV : Vmat M j q = 0 := by
        unfold Vmat
        exact if_neg (fun hc => absurd hc.1 (by omega))
      have hPs : PsMat M j q = 0 := by
        unfold PsMat
        exact if_neg (fun hc => hqj hc.1.symm)
      rw [hV, hPs, zero_add, zero_mul]
    · intro hjm
      exact absurd (Finset.mem_range.mpr hj2) hjm
  rw [h1, h2]
  exact NPs_eq M j k hk

/-- A backward row step is the application of `M2·W·E` to the next row. -/
theorem bwdStep_eq (M : Model) (ei next : ℕ → ℚ)
    (hE : ∀ ed ∈ M.edges, ed.src < M.m ∧ ed.tgt < M.m)
    (hssm : M.silent_start ≤ M.m) :
    ∀ j, j < M.m →
      bwdStep M ei next j = mvec M (M2mat M) (mvec M (Pmat M ei) next) j := by
  set κ := mvec M (Pmat M ei) next with hκdef
  have hκ : ∀ k, outSum M k (fun li => li < M.silent_start) (fun li => next li * ei li) =
      κ k := by
    intro k
    rw [outSum_eq_sum M k _ _ (fun ed hed => (hE ed hed).2), hκdef]
    show _ = ∑ j ∈ Finset.range M.m, Pmat M ei k j * next j
    refine Finset.sum_congr rfl (fun j _ => ?_)
    rw [Pmat_eq M ei hssm k j]
    by_cases hj : j < M.silent_start
    · rw [if_pos (by simpa using hj), if_pos hj]
      ring
    · rw [if_neg (by simpa using hj), if_neg hj, zero_mul]
  have hp1 : ∀ k, bwdP1 M ei next k = if k < M.silent_start then 0 else κ k := by
    intro k
    unfold bwdP1
    by_cases hk : k < M.silent_start
    · rw [if_pos hk, if_pos hk]
    · rw [if_neg hk, if_neg hk, hκ k]
  set target2 : ℕ → ℚ := fun x =>
    ∑ j ∈ Finset.range M.m, Nmat M x j * bwdP1 M ei next j with htarget2
  have hp2 : ∀ x, M.silent_start ≤ x → bwdP2 M ei next x = target2 x := by
    have hmain := sweep_desc_char
      (fun f k => f k + outSum M k (fun li => k + 1 ≤ li) f)
      (M.m - M.silent_start) M.silent_start
      (bwdP1 M ei next)
      target2
      (by
        intro x hx
        rw [htarget2]
        dsimp only
        have hx0 : bwdP1 M ei next x = 0 := by
          rw [hp1 x, if_neg (by omega)]
          rw [hκdef]
          unfold mvec
          refine Finset.sum_eq_zero (fun j _ => ?_)
          rw [Pmat_eq M ei hssm x j]
          by_cases hj : j < M.silent_start
          · rw [if_pos hj, Wmat_src_oob M x j (fun ed hed => (hE ed hed).1) (by omega),
              zero_mul, zero_mul]
          · rw [if_neg hj, zero_mul]
        rw [hx0]
        refine Eq.symm (Finset.sum_eq_zero (fun j hj => ?_))
        rw [Nmat_lower M (by
          have := Finset.mem_range.mp hj
          omega), zero_mul])
      (by
        intro g l hal hl hdone hrest
        dsimp only at hdone hrest ⊢
        have hlm : l < M.m := by omega
        have e1 : g l = bwdP1 M ei next l := hrest l le_rfl
        have e2 : outSum M l (fun li => l + 1 ≤ li) g =
            ∑ q ∈ Finset.range M.m, Umat M l q * target2 q := by
          rw [outSum_eq_sum M l _ g (fun ed hed => (hE ed hed).2)]
          refine Finset.sum_congr rfl (fun q _ => ?_)
          by_cases hc : l + 1 ≤ q
          · rw [if_pos (by simpa using hc), hdone q (by omega)]
            unfold Umat
            rw [if_pos ⟨hal, by omega, by omega⟩]
            ring
          · rw [if_neg (by simpa using hc)]
            unfold Umat
            rw [if_neg (fun hcc => hc (by omega)), zero_mul]
        have e3 : target2 l = bwdP1 M ei next l +
            ∑ q ∈ Finset.range M.m, Umat M l q * target2 q := by
          rw [htarget2]
          dsimp only
          have ha : ∑ j ∈ Finset.range M.m, Nmat M l j * bwdP1 M ei next j =
              ∑ j ∈ Finset.range M.m, ((idMat l j + mulM M (Umat M) (Nmat M) l j) *
                bwdP1 M ei next j) := by
            refine Finset.sum_congr rfl (fun j hj => ?_)
            rw [← Nmat_rec_left M l (Finset.mem_range.mp hj)]
          rw [ha]
          simp only [add_mul]
          rw [Finset.sum_add_distrib]
          congr 1
          · simp only [idMat, ite_mul, one_mul, zero_mul]
            rw [Finset.sum_ite_eq (Finset.range M.m) l (fun j => bwdP1 M ei next j)]
            rw [if_pos (Finset.mem_range.mpr hlm)]
          · unfold mulM
            simp only [Finset.sum_mul]
            rw [Finset.sum_comm]
            refine Finset.sum_congr rfl (fun q _ => ?_)
            rw [Finset.mul_sum]
            refine Finset.sum_congr rfl (fun j _ => ?_)
            ring
        rw [e1, e2, e3])
    intro x hx
    unfold bwdP2 silentRange
    exact hmain x hx
  intro j hj
  unfold bwdStep
  by_cases hjs : j < M.silent_start
  · rw [if_pos hjs]
    have hL2 : outSum M j (fun li => M.silent_start ≤ li) (bwdP2 M ei next) =
        ∑ q ∈ Finset.range M.m, Vmat M j q * target2 q := by
      rw [outSum_eq_sum M j _ _ (fun ed hed => (hE ed hed).2)]
      refine Finset.sum_congr rfl (fun q _ => ?_)
      by_cases hqs : M.silent_start ≤ q
      · rw [if_pos (by simpa using hqs), hp2 q hqs]
        unfold Vmat
        rw [if_pos ⟨hjs, hqs⟩]
        ring
      · rw [if_neg (by simpa using hqs)]
        unfold Vmat
        rw [if_neg (fun hc => hqs hc.2), zero_mul]
    have hInner : ∀ q, (∑ k ∈ Finset.range M.m,
        mulM M (Nmat M) (PsMat M) q k * κ k) = target2 q := by
      intro q
      rw [htarget2]
      dsimp only
      refine Finset.sum_congr rfl (fun k hk => ?_)
      rw [NPs_eq M q k (Finset.mem_range.mp hk), hp1 k]
      by_cases hks : M.silent_start ≤ k
      · rw [if_pos hks, if_neg (by omega)]
      · rw [if_neg hks, if_pos (by omega), zero_mul, mul_zero]
    have hM2row : ∀ k, M2mat M j k =
        PeMat M j k +
          ∑ q ∈ Finset.range M.m, Vmat M j q * mulM M (Nmat M) (PsMat M) q k := by
      intro k
      unfold M2mat
      congr 1
      unfold mulM
      refine Finset.sum_congr rfl (fun q _ => ?_)
      dsimp only
      have hPs0 : PsMat M j q = 0 := by
        unfold PsMat
        rw [if_neg (fun hc => absurd hc.2 (by omega))]
      rw [hPs0, add_zero]
    have hR : mvec M (M2mat M) κ j =
        κ j + ∑ q ∈ Finset.range M.m, Vmat M j q * target2 q := by
      unfold mvec
      calc ∑ k ∈ Finset.range M.m, M2mat M j k * κ k
          = ∑ k ∈ Finset.range M.m, (PeMat M j k * κ k +
              (∑ q ∈ Finset.range M.m,
                Vmat M j q * mulM M (Nmat M) (PsMat M) q k) * κ k) := by
            refine Finset.sum_congr rfl (fun k _ => ?_)
            rw [hM2row k, add_mul]
        _ = (∑ k ∈ Finset.range M.m, PeMat M j k * κ k) +
              ∑ k ∈ Finset.range M.m, ∑ q ∈ Finset.range M.m,
                Vmat M j q * mulM M (Nmat M) (PsMat M) q k * κ k := by
            rw [Finset.sum_add_distrib]
            congr 1
            refine Finset.sum_congr rfl (fun k _ => ?_)
            rw [Finset.sum_mul]
        _ = κ j + ∑ q ∈ Finset.range M.m, Vmat M j q * target2 q := by
            congr 1
            · rw [Finset.sum_eq_single j]
              · unfold PeMat
                rw [if_pos ⟨rfl, hjs⟩, one_mul]
              · intro k _ hkj
                unfold PeMat
                rw [if_neg (fun hc => hkj hc.1.symm), zero_mul]
              · intro hjm
                exact absurd (Finset.mem_range.mpr hj) hjm
            · rw [Finset.sum_comm]
              refine Finset.sum_congr rfl (fun q _ => ?_)
              rw [← hInner q, Finset.mul_sum]
              refine Finset.sum_congr rfl (fun k _ => ?_)
              ring
    rw [hκ j, hL2, hR]
  · rw [if_neg hjs]
    rw [hp2 j (by omega)]
    unfold mvec
    rw [htarget2]
    dsimp only
    refine Finset.sum_congr rfl (fun k hk => ?_)
    rw [M2_row_silent M (by omega) hj k (Finset.mem_range.mp hk)]
    rw [hp1 k]
    by_cases hks : M.silent_start ≤ k
    · rw [if_pos hks, if_neg (by omega)]
    · rw [if_neg hks, if_pos (by omega), zero_mul, mul_zero]

/-! ## Matrix identities tying the two closures together -/

/-- The start row of `M2mat` is the start row of the closure. -/
theorem M2_row_start (M : Model) (hs1 : M.silent_start ≤ M.start_index)
    (hs2 : M.start_index < M.m) :
    ∀ b, b < M.m → M2mat M M.start_index b = Nmat M M.start_index b := by
  intro b hb
  rw [M2_row_silent M hs1 hs2 b hb]
  by_cases hbs : M.silent_start ≤ b
  · rw [if_pos hbs]
  · rw [if_neg hbs, Nmat_emit_col M (by omega) hb, if_neg (by omega)]

/-- The end column of `M2mat` is the backward initialization vector. -/
theorem M2_col_end (M : Model) (he1 : M.silent_start ≤ M.end_index)
    (he2 : M.end_index < M.m) :
    ∀ j, M2mat M j M.end_index = bvecN M j := by
  intro j
  have hPe : PeMat M j M.end_index = 0 := by
    unfold PeMat
    exact if_neg (by omega)
  have h2 : M2mat M j M.end_index = ∑ q ∈ Finset.range M.m,
      (Vmat M j q + PsMat M j q) * mulM M (Nmat M) (PsMat M) q M.end_index := by
    unfold M2mat
    rw [hPe, zero_add]
    rfl
  rw [h2]
  unfold bvecN
  refine Finset.sum_congr rfl (fun q _ => ?_)
  rw [NPs_eq M q M.end_index he2, if_pos he1]

/-- For any vector supported on emitting states, `I + V·N` and `M2` act the
same on the right. -/
theorem vmul_M1_eq_M2 (M : Model) (ψ : ℕ → ℚ)
    (hψ0 : ∀ j, M.silent_start ≤ j → ψ j = 0) :
    ∀ b, b < M.m → vmul M ψ (M1mat M) b = vmul M ψ (M2mat M) b := by
  intro b hb
  rw [vmul_M1_split M ψ hb]
  have hM2 : vmul M ψ (M2mat M) b =
      (∑ j ∈ Finset.range M.m, ψ j * PeMat M j b) +
        ∑ j ∈ Finset.range M.m, ψ j *
          (∑ q ∈ Finset.range M.m,
            (Vmat M j q + PsMat M j q) * mulM M (Nmat M) (PsMat M) q b) := by
    unfold vmul M2mat
    rw [← Finset.sum_add_distrib]
    refine Finset.sum_congr rfl (fun j _ => ?_)
    dsimp only
    rw [mul_add]
    rfl
  have hPe : (∑ j ∈ Finset.range M.m, ψ j * PeMat M j b) = ψ b := by
    rw [Finset.sum_eq_single b]
    · unfold PeMat
      by_cases hbs : b < M.silent_start
      · rw [if_pos ⟨rfl, hbs⟩, mul_one]
      · rw [if_neg (fun hc => hbs hc.2), mul_zero, hψ0 b (by omega)]
    · intro j _ hjb
      unfold PeMat
      rw [if_neg (fun hc => hjb hc.1), mul_zero]
    · intro hbm
      exact absurd (Finset.mem_range.mpr hb) hbm
  rw [hM2, hPe]
  congr 1
  refine Finset.sum_congr rfl (fun j hj => ?_)
  by_cases hjs : M.silent_start ≤ j
  · rw [hψ0 j hjs, zero_mul, zero_mul]
  · congr 1
    have hPsRow : ∀ q, PsMat M j q = 0 := by
      intro q
      unfold PsMat
      exact if_neg (by omega)
    by_cases hbs : M.silent_start ≤ b
    · have hR : (∑ q ∈ Finset.range M.m,
          (Vmat M j q + PsMat M j q) * mulM M (Nmat M) (PsMat M) q b) =
          ∑ q ∈ Finset.range M.m, Vmat M j q * Nmat M q b := by
        refine Finset.sum_congr rfl (fun q _ => ?_)
        rw [hPsRow q, add_zero, NPs_eq M q b hb, if_pos hbs]
      rw [hR]
      rfl
    · have hL : mulM M (Vmat M) (Nmat M) j b = 0 := by
        unfold mulM
        refine Finset.sum_eq_zero (fun q _ => ?_)
        rw [Nmat_emit_col M (by omega) hb]
        by_cases hqb : q = b
        · subst hqb
          rw [if_pos rfl, mul_one]
          unfold Vmat
          exact if_neg (by omega)
        · rw [if_neg hqb, mul_zero]
      have hR : (∑ q ∈ Finset.range M.m,
          (Vmat M j q + PsMat M j q) * mulM M (Nmat M) (PsMat M) q b) = 0 := by
        refine Finset.sum_eq_zero (fun q hq => ?_)
        rw [NPs_eq M q b hb, if_neg hbs, mul_zero]
      rw [hL, hR]

/-! ## The forward and backward readouts agree on finite models -/

/-- Auxiliary row vector: `phiP 0` is the start indicator, and
`phiP (t+1)` is row `t` of the forward table pushed through one transfer
step, before the silent closure. -/
def phiP (M : Model) (e : ℕ → ℕ → ℚ) : ℕ → (ℕ → ℚ)
  | 0 => fun j => if j = M.start_index then 1 else 0
  | t + 1 => vmul M (fwdTable M e t) (Pmat M (e t))

/-- Every forward row is its `phiP` vector closed by `M2`. -/
theorem fwdTable_eq_phiP (M : Model) (e : ℕ → ℕ → ℚ)
    (hE : ∀ ed ∈ M.edges, ed.src < M.m ∧ ed.tgt < M.m)
    (hssm : M.silent_start ≤ M.m)
    (hs1 : M.silent_start ≤ M.start_index) (hs2 : M.start_index < M.m) :
    ∀ t b, b < M.m → fwdTable M e t b = vmul M (phiP M e t) (M2mat M) b := by
  intro t
  induction t with
  | zero =>
    intro b hb
    have hδ : vmul M (phiP M e 0) (M2mat M) b = M2mat M M.start_index b := by
      show (∑ j ∈ Finset.range M.m,
        (if j = M.start_index then (1:ℚ) else 0) * M2mat M j b) = _
      rw [Finset.sum_eq_single M.start_index]
      · rw [if_pos rfl, one_mul]
      · intro j _ hj
        rw [if_neg hj, zero_mul]
      · intro hsm
        exact absurd (Finset.mem_range.mpr hs2) hsm
    rw [hδ, M2_row_start M hs1 hs2 b hb]
    exact fwdRow0_eq M hE hssm hs1 hs2 b hb
  | succ t ih =>
    intro b hb
    have h1 : fwdTable M e (t + 1) b =
        vmul M (vmul M (fwdTable M e t) (Pmat M (e t))) (M1mat M) b :=
      fwdNext_eq M (e t) (fwdTable M e t) hE hssm b hb
    rw [h1]
    exact vmul_M1_eq_M2 M _
      (fun j hj => vmul_Pmat_silent M (e t) (fwdTable M e t) hssm hj) b hb

/-- **Forward–backward agreement on finite models.**  In exact arithmetic
the forward readout `f[n, end_index]` and the backward readout
`b[0, start_index]` of `Model._forward` / `Model._backward` coincide, for
every baked finite model (valid state indices, silent start and end
states) and every emission table. -/
theorem fwd_bwd_finite (M : Model) (e : ℕ → ℕ → ℚ) (n : ℕ)
    (hfin : M.finite = true)
    (hE : ∀ ed ∈ M.edges, ed.src < M.m ∧ ed.tgt < M.m)
    (hs1 : M.silent_start ≤ M.start_index) (hs2 : M.start_index < M.m)
    (he1 : M.silent_start ≤ M.end_index) (he2 : M.end_index < M.m) :
    fwdTable M e n M.end_index = bwdTable M e n 0 M.start_index := by
  have hssm : M.silent_start ≤ M.m := by omega
  have hLX := fwdTable_eq_phiP M e hE hssm hs1 hs2
  have hLY : ∀ j, j ≤ n →
      dotM M (phiP M e (n - j)) (bwdAux M e n j) =
        dotM M (phiP M e n) (bwdAux M e n 0) := by
    intro j
    induction j with
    | zero =>
      intro _
      rw [Nat.sub_zero]
    | succ j ihj =>
      intro hjn
      have hjn' : j ≤ n := by omega
      have htn : n - j = (n - (j + 1)) + 1 := by omega
      have h1 : dotM M (phiP M e (n - (j + 1))) (bwdAux M e n (j + 1)) =
          dotM M (phiP M e (n - (j + 1)))
            (mvec M (M2mat M)
              (mvec M (Pmat M (e (n - (j + 1)))) (bwdAux M e n j))) := by
        unfold dotM
        refine Finset.sum_congr rfl (fun k hk => ?_)
        have hrow : bwdAux M e n (j + 1) k =
            mvec M (M2mat M)
              (mvec M (Pmat M (e (n - (j + 1)))) (bwdAux M e n j)) k := by
          show bwdStep M (e (n - (j + 1))) (bwdAux M e n j) k = _
          exact bwdStep_eq M (e (n - (j + 1))) (bwdAux M e n j) hE hssm k
            (Finset.mem_range.mp hk)
        rw [hrow]
      have h2 : dotM M (phiP M e (n - (j + 1)))
          (mvec M (M2mat M)
            (mvec M (Pmat M (e (n - (j + 1)))) (bwdAux M e n j))) =
          dotM M (vmul M (vmul M (phiP M e (n - (j + 1))) (M2mat M))
            (Pmat M (e (n - (j + 1))))) (bwdAux M e n j) := by
        rw [dotM_mvec, dotM_mvec]
      have h3 : dotM M (vmul M (vmul M (phiP M e (n - (j + 1))) (M2mat M))
          (Pmat M (e (n - (j + 1))))) (bwdAux M e n j) =
          dotM M (phiP M e ((n - (j + 1)) + 1)) (bwdAux M e n j) := by
        unfold dotM
        refine Finset.sum_congr rfl (fun k _ => ?_)
        have hv : vmul M (vmul M (phiP M e (n - (j + 1))) (M2mat M))
            (Pmat M (e (n - (j + 1)))) k =
            vmul M (fwdTable M e (n - (j + 1))) (Pmat M (e (n - (j + 1)))) k := by
          rw [show vmul M (fwdTable M e (n - (j + 1))) (Pmat M (e (n - (j + 1)))) k =
            ∑ q ∈ Finset.range M.m,
              fwdTable M e (n - (j + 1)) q * Pmat M (e (n - (j + 1))) q k from rfl]
          show (∑ q ∈ Finset.range M.m,
            vmul M (phiP M e (n - (j + 1))) (M2mat M) q *
              Pmat M (e (n - (j + 1))) q k) = _
          refine Finset.sum_congr rfl (fun q hq => ?_)
          rw [← hLX (n - (j + 1)) q (Finset.mem_range.mp hq)]
        rw [hv]
        rfl
      rw [h1, h2, h3, ← htn]
      exact ihj hjn'
  have hF : fwdTable M e n M.end_index = dotM M (phiP M e n) (bvecN M) := by
    rw [hLX n M.end_index he2]
    unfold vmul dotM
    refine Finset.sum_congr rfl (fun j _ => ?_)
    rw [M2_col_end M he1 he2 j]
  have hB : bwdTable M e n 0 M.start_index =
      dotM M (phiP M e 0) (bwdAux M e n n) := by
    unfold bwdTable
    rw [Nat.sub_zero]
    have hδ : dotM M (phiP M e 0) (bwdAux M e n n) = bwdAux M e n n M.start_index := by
      show (∑ j ∈ Finset.range M.m,
        (if j = M.start_index then (1:ℚ) else 0) * bwdAux M e n n j) = _
      rw [Finset.sum_eq_single M.start_index]
      · rw [if_pos rfl, one_mul]
      · intro j _ hj
        rw [if_neg hj, zero_mul]
      · intro hsm
        exact absurd (Finset.mem_range.mpr hs2) hsm
    rw [hδ]
  have hInit : dotM M (phiP M e n) (bwdAux M e n 0) =
      dotM M (phiP M e n) (bvecN M) := by
    unfold dotM
    refine Finset.sum_congr rfl (fun k hk => ?_)
    have hrow : bwdAux M e n 0 k = bvecN M k :=
      bwdInit_eq M e n hfin hE hssm he1 he2 k (Finset.mem_range.mp hk)
    rw [hrow]
  have hnn : n - n = 0 := Nat.sub_self n
  rw [hF, hB, ← hInit, ← hLY n le_rfl, hnn]

/-! ## `Model.add_transition` (yahmm.pyx lines 1333-1350)

The method stores `weight = log(probability)` and
`pseudocount = pseudocount or probability` on the edge; the Python `or`
falls back to `probability` whenever the supplied pseudocount is `None`
or any falsy number (`0`, `0.0`). -/

/-- The pseudocount stored by `add_transition`: `pseudocount or probability`. -/
def add_transition_pseudocount (probability : ℚ) (pseudocount : Option ℚ) : ℚ :=
  match pseudocount with
  | none => probability
  | some c => if c = 0 then probability else c

/-! ## `GammaDistribution.from_sample` rate update (yahmm.pyx lines 494-502)

After the Newton-Raphson iteration for the shape parameter finishes, the
rate parameter is computed as
`rate = 1.0 / (1.0 / (shape * weights.sum()) * items.dot(weights).sum())`. -/

/-- Weighted dot product `items.dot(weights)`. -/
def dotList (items weights : List ℚ) : ℚ :=
  (List.zipWith (fun x w => x * w) items weights).sum

/-- The rate parameter computed by `GammaDistribution.from_sample` from the
converged shape. -/
def gamma_rate (shape : ℚ) (items weights : List ℚ) : ℚ :=
  1 / (1 / (shape * weights.sum) * dotList items weights)

/-- The rate parameter as the specification formula states it:
`β = Σw / (α · Σ(x·w))`. -/
def gamma_rate_spec (shape : ℚ) (items weights : List ℚ) : ℚ :=
  weights.sum / (shape * dotList items weights)

/-! ## Outgoing-probability normalization in `Model.bake`
(yahmm.pyx lines 1465-1483)

For each state the sum `Z` of the outgoing probabilities is rounded to 8
decimal places; if the rounded value differs from `1` every outgoing
probability is divided by it (in log space: `log Z` is subtracted). -/

/-- Python 2 `round(x, 8)` for the non-negative sums at hand: half away
from zero equals half up. -/
def rnd8 (q : ℚ) : ℚ := (⌊q * 100000000 + 1 / 2⌋ : ℚ) / 100000000

/-- The outgoing probabilities of one non-end state after the
normalization step of `Model.bake`, given the raw probabilities. -/
def bake_normalize (outs : List ℚ) : List ℚ :=
  if rnd8 outs.sum ≠ 1 then outs.map (fun p => p / rnd8 outs.sum) else outs

/-! ## Distribution fitting guards (`from_sample`)

`NormalDistribution.from_sample` (yahmm.pyx lines 246-300) returns
without touching `self.parameters` when `items` is empty or the weights
sum to zero.  `DiscreteDistribution.from_sample` (lines 611-632) has no
such guard: it always rebuilds the character table from the samples.
The embeddings below are parametric in the square-root function used for
the standard deviation, which is the only non-rational primitive. -/

/-- Compiled arrays of a baked model used by `Model._sample`. -/
structure SampleModel where
  m : ℕ
  start_index : ℕ
  end_index : ℕ
  silent : ℕ → Bool
  finite : Bool
  out_edge_count : List ℕ
  out_transitions : List ℕ
  out_probs : List ℚ

/-- CSR offset lookup. -/
def SampleModel.off (S : SampleModel) (k : ℕ) : ℕ := S.out_edge_count.getD k 0

/-- Edge target lookup. -/
def SampleModel.tgt (S : SampleModel) (l : ℕ) : ℕ := S.out_transitions.getD l 0

/-- Within-state running cumulative sums. -/
def prefixSums : ℚ → List ℚ → List ℚ
  | _, [] => []
  | c, p :: rest => (c + p) :: prefixSums (c + p) rest

/-- The flat `cum_probabilities` array built at the top of `_sample`:
for each state in order, the running cumulative of its out-edge
probabilities. -/
def cumArray (S : SampleModel) : List ℚ :=
  (List.range S.m).flatMap (fun k =>
    prefixSums 0 ((S.out_probs.drop (S.off k)).take (S.off (k + 1) - S.off k)))

/-- One selection loop `for k in xrange(out_edges[i], out_edges[i+1])`:
move to the target of the first edge whose cumulative exceeds the draw.
Returns the new state and the final value of the loop variable `k`
(`k0` when the range is empty, as in Python). -/
def selectEdge (S : SampleModel) (cums : List ℚ) (i : ℕ) (u : ℚ) (k0 : ℕ) : ℕ × ℕ :=
  let r := List.range' (S.off i) (S.off (i + 1) - S.off i)
  match r.find? (fun k => decide (u < cums.getD k 0)) with
  | some k => (S.tgt k, k)
  | none => (i, r.getLastD k0)

/-- The avoid-the-end cumulative of the source (lines 1818-1822): note it
ranges over `xrange(out_edges[k], out_edges[k+1])` for the stale edge
index `k` and accumulates entries of the cumulative array. -/
def avoidCumul (S : SampleModel) (cums : List ℚ) (k : ℕ) : ℚ :=
  ((List.range' (S.off k) (S.off (k + 1) - S.off k)).filter
    (fun kk => S.tgt kk ≠ S.end_index)).foldl (fun acc kk => acc + cums.getD kk 0) 0

/-- Result of a sampling walk: the visited states (in order, excluding the
final end state) and the number of emissions. -/
inductive SampleOutcome where
  | reachedLength (trace : List ℕ) (emitted : ℕ)
  | reachedEnd (trace : List ℕ) (emitted : ℕ)
  | outOfFuel (trace : List ℕ) (emitted : ℕ)
deriving DecidableEq, Repr

/-- The sampling walk of `Model._sample`, with explicit draws and fuel.
`kReg` is the persistent Python loop variable `k`. -/
def sampleWalk (S : SampleModel) (length : ℕ) :
    ℕ → ℕ → ℕ → ℕ → List ℚ → List ℕ → SampleOutcome
  | 0, _, _, n, _, trace => SampleOutcome.outOfFuel trace.reverse n
  | fuel + 1, i, kReg, n, draws, trace =>
    if i = S.end_index then SampleOutcome.reachedEnd trace.reverse n
    else
      let trace' := i :: trace
      let n' := if S.silent i then n else n + 1
      if length ≠ 0 ∧ length ≤ n' then SampleOutcome.reachedLength trace'.reverse n'
      else
        match draws with
        | [] => SampleOutcome.outOfFuel trace'.reverse n'
        | u :: draws1 =>
          let cums := cumArray S
          let j := i
          let s1 := selectEdge S cums i u kReg
          if length ≠ 0 ∧ S.finite = true ∧ s1.1 = S.end_index then
            if S.off (j + 1) - S.off j = 1 ∧ S.tgt (S.off j) = S.end_index then
              SampleOutcome.reachedEnd trace'.reverse n'
            else
              match draws1 with
              | [] => SampleOutcome.outOfFuel trace'.reverse n'
              | u2 :: draws2 =>
                let c := avoidCumul S cums s1.2
                let kReg2 := (List.range' (S.off s1.2)
                  (S.off (s1.2 + 1) - S.off s1.2)).getLastD s1.2
                let s2 := selectEdge S cums s1.1 (u2 * c) kReg2
                sampleWalk S length fuel s2.1 s2.2 n' draws2 trace'
          else
            sampleWalk S length fuel s1.1 s1.2 n' draws1 trace'

/-! ## The Viterbi kernel (`Model._viterbi`, yahmm.pyx lines 2607-2790)

Same pass structure as the forward kernel with `pair_lse` replaced by
`max` (a strict comparison keeps the first winner), emission terms
multiplied by the state weights (`e[k, i] = d.log_probability(...) +
self.state_weights[i]`), and two traceback coordinates recorded per cell.
A cell is a triple `(value, tracebackx, tracebacky)`; the uninitialized
traceback memory is modelled as zeros. -/

/-- The winner-keeping fold of a `if state_log_probability > v[...]` loop. -/
def winFold (init : ℚ × ℕ × ℕ) (cands : List (ℚ × ℕ × ℕ)) : ℚ × ℕ × ℕ :=
  cands.foldl (fun cur c => if cur.1 < c.1 then c else cur) init

/-- Candidate cells from the in-edges of `l` whose source passes `keep`:
value `f(src) * p * mulBy` and traceback `(x, src)`. -/
def vCands (M : Model) (l : ℕ) (keep : ℕ → Bool) (f : ℕ → ℚ) (mulBy : ℚ) (x : ℕ) :
    List (ℚ × ℕ × ℕ) :=
  (M.edges.filter (fun ed => ed.tgt == l && keep ed.src)).map
    (fun ed => (f ed.src * ed.p * mulBy, (x, ed.src)))

/-- Row 0 of the Viterbi table: start indicator, then the silent pass over
lower-indexed silent states, skipping the start state. -/
def vRow0 (M : Model) : ℕ → ℚ × ℕ × ℕ :=
  sweep
    (fun f l => if l = M.start_index then f l
      else winFold (f l)
        (vCands M l (fun k => M.silent_start ≤ k && k < l) (fun k => (f k).1) 1 0))
    (silentRange M)
    (fun l => if l = M.start_index then (1, 0, 0) else (0, 0, 0))

/-- Emitting pass of Viterbi row `i+1`: weighted emission times the best
predecessor from row `i`. -/
def vEmit (M : Model) (ev : ℕ → ℚ) (prev : ℕ → ℚ) (i : ℕ) : ℕ → ℚ × ℕ × ℕ := fun l =>
  if l < M.silent_start then
    winFold (0, 0, 0) (vCands M l (fun _ => true) prev (ev l) i)
  else (0, 0, 0)

/-- First silent pass of Viterbi row `i+1`, over the freshly written
emitting cells of the same row. -/
def vSil1 (M : Model) (ev : ℕ → ℚ) (prev : ℕ → ℚ) (i : ℕ) : ℕ → ℚ × ℕ × ℕ := fun l =>
  if l < M.silent_start then vEmit M ev prev i l
  else winFold (0, 0, 0)
    (vCands M l (fun k => k < M.silent_start) (fun k => (vEmit M ev prev i k).1) 1 (i + 1))

/-- A full Viterbi row step: emitting pass, then the two silent passes. -/
def vNext (M : Model) (ev : ℕ → ℚ) (prev : ℕ → ℚ) (i : ℕ) : ℕ → ℚ × ℕ × ℕ :=
  sweep
    (fun f l => winFold (f l)
      (vCands M l (fun k => M.silent_start ≤ k && k < l) (fun k => (f k).1) 1 (i + 1)))
    (silentRange M)
    (vSil1 M ev prev i)

/-- The Viterbi DP table `v` (with its traceback matrices) in probability
space; `w` is `exp(state_weights)`. -/
def vTable (M : Model) (e : ℕ → ℕ → ℚ) (w : ℕ → ℚ) : ℕ → ℕ → ℚ × ℕ × ℕ
  | 0 => vRow0 M
  | t + 1 => vNext M (fun l => e t l * w l) (fun k => (vTable M e w t k).1) t

/-- `numpy.argmax` over `vals 0, ..., vals (m-1)`: index of the first
maximum. -/
def vArgmax (vals : ℕ → ℚ) (m : ℕ) : ℕ :=
  (List.range m).foldl (fun best l => if vals best < vals l then l else best) 0

/-- The Viterbi log-likelihood readout (lines 2749-2757):
`v[n, end_index]` for a finite model, `v[n, argmax(v[n])]` otherwise. -/
def viterbiScore (M : Model) (e : ℕ → ℕ → ℚ) (w : ℕ → ℚ) (n : ℕ) : ℚ :=
  if M.finite then (vTable M e w n M.end_index).1
  else (vTable M e w n (vArgmax (fun l => (vTable M e w n l).1) M.m)).1

/-- The traceback walk (lines 2763-2790), with fuel: follow the stored
coordinates from `(n, end)` back to `(0, start_index)`, recording
`(position, state)` pairs, then reverse. -/
def vTraceback (tb : ℕ → ℕ → ℕ × ℕ) (si : ℕ) : ℕ → ℕ → ℕ → List (ℕ × ℕ) → List (ℕ × ℕ)
  | 0, px, py, acc => ((px, py) :: acc).reverse
  | fuel + 1, px, py, acc =>
    if px = 0 ∧ py = si then ((px, py) :: acc).reverse
    else vTraceback tb si fuel (tb px py).1 (tb px py).2 ((px, py) :: acc)

/-- `Model._viterbi`: the readout pair.  When the log-likelihood is
`NEGINF` (probability `0`) the traceback is skipped and `(NEGINF, None)`
is returned; otherwise the traceback path is produced. -/
def viterbi (M : Model) (e : ℕ → ℕ → ℚ) (w : ℕ → ℚ) (n : ℕ) :
    ℚ × Option (List (ℕ × ℕ)) :=
  let endi := if M.finite then M.end_index
    else vArgmax (fun l => (vTable M e w n l).1) M.m
  let ll := (vTable M e w n endi).1
  if ll = 0 then (ll, none)
  else (ll, some (vTraceback (fun px py => (vTable M e w px py).2) M.start_index
    ((n + 1) * M.m + 1) n endi []))

/-! ## Viterbi is dominated by the forward sum -/

theorem winFold_fst_le (cands : List (ℚ × ℕ × ℕ)) :
    ∀ (init : ℚ × ℕ × ℕ) (S : ℚ), init.1 ≤ S → (∀ c ∈ cands, c.1 ≤ S) →
    (winFold init cands).1 ≤ S := by
  induction cands with
  | nil => exact fun init S hi _ => hi
  | cons c cs ih =>
    intro init S hi hc
    show (winFold (if init.1 < c.1 then c else init) cs).1 ≤ S
    refine ih _ S ?_ (fun c' hc' => hc c' (List.mem_cons_of_mem _ hc'))
    by_cases h : init.1 < c.1
    · rw [if_pos h]; exact hc c (List.mem_cons_self _ _)
    · rw [if_neg h]; exact hi

theorem winFold_fst_ge_init (cands : List (ℚ × ℕ × ℕ)) :
    ∀ (init : ℚ × ℕ × ℕ), init.1 ≤ (winFold init cands).1 := by
  induction cands with
  | nil => exact fun _ => le_rfl
  | cons c cs ih =>
    intro init
    show init.1 ≤ (winFold (if init.1 < c.1 then c else init) cs).1
    refine le_trans ?_ (ih _)
    by_cases h : init.1 < c.1
    · rw [if_pos h]; exact le_of_lt h
    · rw [if_neg h]

theorem inSum_nonneg (M : Model) (l : ℕ) (keep : ℕ → Bool) (f : ℕ → ℚ)
    (hp : ∀ ed ∈ M.edges, 0 ≤ ed.p) (hf : ∀ k, 0 ≤ f k) :
    0 ≤ inSum M l keep f := by
  unfold inSum edgeSum
  refine List.sum_nonneg ?_
  intro x hx
  rcases List.mem_map.mp hx with ⟨ed, hed, hval⟩
  rw [← hval]
  exact mul_nonneg (hf ed.src) (hp ed (List.mem_filter.mp hed).1)

/-- Each Viterbi candidate is dominated by the corresponding scaled
forward accumulation. -/
theorem vCands_le_inSum (M : Model) (l : ℕ) (keep : ℕ → Bool)
    (fA fB : ℕ → ℚ) (mulBy mulByB : ℚ) (x : ℕ)
    (hAB : ∀ k, fA k ≤ fB k) (hB0 : ∀ k, 0 ≤ fB k)
    (hp : ∀ ed ∈ M.edges, 0 ≤ ed.p)
    (hm0 : 0 ≤ mulBy) (hmB : mulBy ≤ mulByB) :
    ∀ c ∈ vCands M l keep fA mulBy x, c.1 ≤ mulByB * inSum M l keep fB := by
  intro c hc
  rcases List.mem_map.mp hc with ⟨ed, hed, hval⟩
  have hmem : ed ∈ M.edges := (List.mem_filter.mp hed).1
  have hp' : 0 ≤ ed.p := hp ed hmem
  have hmB0 : 0 ≤ mulByB := le_trans hm0 hmB
  have h1 : c.1 = fA ed.src * ed.p * mulBy := by rw [← hval]
  have h2 : fA ed.src * ed.p * mulBy ≤ fB ed.src * ed.p * mulByB := by
    have ha : fA ed.src * ed.p ≤ fB ed.src * ed.p :=
      mul_le_mul_of_nonneg_right (hAB ed.src) hp'
    have hb : fA ed.src * ed.p * mulBy ≤ fB ed.src * ed.p * mulBy :=
      mul_le_mul_of_nonneg_right ha hm0
    have hcc : fB ed.src * ed.p * mulBy ≤ fB ed.src * ed.p * mulByB :=
      mul_le_mul_of_nonneg_left hmB (mul_nonneg (hB0 ed.src) hp')
    exact le_trans hb hcc
  have h3 : fB ed.src * ed.p ≤ inSum M l keep fB := by
    unfold inSum edgeSum
    refine List.single_le_sum ?_ _ ?_
    · intro q hq
      rcases List.mem_map.mp hq with ⟨ed', hed', hval'⟩
      rw [← hval']
      exact mul_nonneg (hB0 ed'.src) (hp ed' (List.mem_filter.mp hed').1)
    · exact List.mem_map.mpr ⟨ed, hed, rfl⟩
  calc c.1 = fA ed.src * ed.p * mulBy := h1
    _ ≤ fB ed.src * ed.p * mulByB := h2
    _ = mulByB * (fB ed.src * ed.p) := by ring
    _ ≤ mulByB * inSum M l keep fB := mul_le_mul_of_nonneg_left h3 hmB0

/-- Variant of `sweep_rel` that also lets each step know that the visited
cell still holds its initial value. -/
theorem sweep_rel_init {α β : Type} (R : α → β → Prop)
    (stepA : (ℕ → α) → ℕ → α) (stepB : (ℕ → β) → ℕ → β)
    (idxs : List ℕ) (hnd : idxs.Nodup) (fA : ℕ → α) (fB : ℕ → β)
    (h0 : ∀ x, R (fA x) (fB x))
    (hstep : ∀ gA gB l, l ∈ idxs → (∀ x, R (gA x) (gB x)) →
      gA l = fA l → gB l = fB l → R (stepA gA l) (stepB gB l)) :
    ∀ x, R (sweep stepA idxs fA x) (sweep stepB idxs fB x) := by
  induction idxs generalizing fA fB with
  | nil => exact fun x => h0 x
  | cons l rest ih =>
    intro x
    rw [sweep_cons, sweep_cons]
    have hstepl : R (stepA fA l) (stepB fB l) :=
      hstep fA fB l (List.mem_cons_self _ _) h0 rfl rfl
    refine ih (List.Nodup.of_cons hnd) _ _ ?_ ?_ x
    · intro y
      by_cases hy : y = l
      · subst hy
        rw [Function.update_same, Function.update_same]
        exact hstepl
      · rw [Function.update_noteq hy, Function.update_noteq hy]
        exact h0 y
    · intro gA gB l' hl' hR hA hB
      have hll' : l' ≠ l := fun h => (List.nodup_cons.mp hnd).1 (h ▸ hl')
      refine hstep gA gB l' (List.mem_cons_of_mem _ hl') hR ?_ ?_
      · rw [hA, Function.update_noteq hll']
      · rw [hB, Function.update_noteq hll']

/-- Pointwise domination of the Viterbi table by the forward table,
together with nonnegativity of the forward table, for a model with
probabilities in `[0,1]`, nonnegative emissions and state weights at
most 1. -/
theorem vTable_le_fwdTable (M : Model) (e : ℕ → ℕ → ℚ) (w : ℕ → ℚ)
    (hp : ∀ ed ∈ M.edges, 0 ≤ ed.p)
    (he : ∀ t i, 0 ≤ e t i)
    (hw : ∀ i, 0 ≤ w i ∧ w i ≤ 1) :
    ∀ t l, (vTable M e w t l).1 ≤ fwdTable M e t l ∧ 0 ≤ fwdTable M e t l := by
  intro t
  induction t with
  | zero =>
    have hnd : (silentRange M).Nodup := List.nodup_range' _ _ _ Nat.one_pos
    refine sweep_rel_init (fun (a : ℚ × ℕ × ℕ) (q : ℚ) => a.1 ≤ q ∧ 0 ≤ q)
      _ _ (silentRange M) hnd _ _ ?_ ?_
    · intro x
      dsimp only
      by_cases hx : x = M.start_index
      · rw [if_pos hx, if_pos hx]
        exact ⟨le_rfl, by norm_num⟩
      · rw [if_neg hx, if_neg hx]
        exact ⟨le_rfl, le_rfl⟩
    · intro gA gB l _ hR hA hB
      dsimp only
      by_cases hl : l = M.start_index
      · rw [if_pos hl, if_pos hl]
        exact hR l
      · rw [if_neg hl, if_neg hl]
        have hg0 : ∀ k, 0 ≤ gB k := fun k => (hR k).2
        have hS0 : 0 ≤ inSum M l (fun k => M.silent_start ≤ k && k < l) gB :=
          inSum_nonneg M l _ gB hp hg0
        constructor
        · refine winFold_fst_le _ _ _ ?_ ?_
          · rw [hA, if_neg hl]
            exact hS0
          · intro c hc
            have := vCands_le_inSum M l (fun k => M.silent_start ≤ k && k < l)
              (fun k => (gA k).1) gB 1 1 0 (fun k => (hR k).1) hg0 hp
              (by norm_num) le_rfl c hc
            rwa [one_mul] at this
        · exact hS0
  | succ t ih =>
    have hprevAB : ∀ k, (vTable M e w t k).1 ≤ fwdTable M e t k := fun k => (ih k).1
    have hprevB0 : ∀ k, 0 ≤ fwdTable M e t k := fun k => (ih k).2
    have hemit : ∀ l, (vEmit M (fun l' => e t l' * w l') (fun k => (vTable M e w t k).1) t l).1 ≤
        fwdEmit M (e t) (fwdTable M e t) l ∧ 0 ≤ fwdEmit M (e t) (fwdTable M e t) l := by
      intro l
      unfold vEmit fwdEmit
      by_cases hl : l < M.silent_start
      · rw [if_pos hl, if_pos hl]
        have hS0 : 0 ≤ e t l * inSum M l (fun _ => true) (fwdTable M e t) :=
          mul_nonneg (he t l) (inSum_nonneg M l _ _ hp hprevB0)
        constructor
        · refine winFold_fst_le _ _ _ (by exact hS0) ?_
          intro c hc
          exact vCands_le_inSum M l (fun _ => true) (vTable M e w t · |>.1)
            (fwdTable M e t) (e t l * w l) (e t l) t hprevAB hprevB0 hp
            (mul_nonneg (he t l) (hw l).1)
            (by
              have h1 : e t l * w l ≤ e t l * 1 :=
                mul_le_mul_of_nonneg_left (hw l).2 (he t l)
              rwa [mul_one] at h1) c hc
        · exact hS0
      · rw [if_neg hl, if_neg hl]
        exact ⟨le_rfl, le_rfl⟩
    have hsil1 : ∀ l,
        (vSil1 M (fun l' => e t l' * w l') (fun k => (vTable M e w t k).1) t l).1 ≤
          fwdSil1 M (e t) (fwdTable M e t) l ∧
        0 ≤ fwdSil1 M (e t) (fwdTable M e t) l := by
      intro l
      unfold vSil1 fwdSil1
      by_cases hl : l < M.silent_start
      · rw [if_pos hl, if_pos hl]
        exact hemit l
      · rw [if_neg hl, if_neg hl]
        have hfB0 : ∀ k, 0 ≤ fwdEmit M (e t) (fwdTable M e t) k := fun k => (hemit k).2
        have hS0 : 0 ≤ inSum M l (fun k => k < M.silent_start)
            (fwdEmit M (e t) (fwdTable M e t)) := inSum_nonneg M l _ _ hp hfB0
        constructor
        · refine winFold_fst_le _ _ _ (by exact hS0) ?_
          intro c hc
          have := vCands_le_inSum M l (fun k => k < M.silent_start)
            (fun k => (vEmit M (fun l' => e t l' * w l')
              (fun k' => (vTable M e w t k').1) t k).1)
            (fwdEmit M (e t) (fwdTable M e t)) 1 1 (t + 1)
            (fun k => (hemit k).1) hfB0 hp (by norm_num) le_rfl c hc
          rwa [one_mul] at this
        · exact hS0
    refine sweep_rel (fun (a : ℚ × ℕ × ℕ) (q : ℚ) => a.1 ≤ q ∧ 0 ≤ q)
      _ _ (silentRange M) _ _ hsil1 ?_
    intro gA gB l _ hR
    dsimp only
    have hg0 : ∀ k, 0 ≤ gB k := fun k => (hR k).2
    have hS0 : 0 ≤ inSum M l (fun k => M.silent_start ≤ k && k < l) gB :=
      inSum_nonneg M l _ gB hp hg0
    constructor
    · refine winFold_fst_le _ _ _ ?_ ?_
      · exact le_trans (hR l).1 (le_add_of_nonneg_right hS0)
      · intro c hc
        have h1 := vCands_le_inSum M l (fun k => M.silent_start ≤ k && k < l)
          (fun k => (gA k).1) gB 1 1 (t + 1) (fun k => (hR k).1) hg0 hp
          (by norm_num) le_rfl c hc
        rw [one_mul] at h1
        exact le_trans h1 (le_add_of_nonneg_left (hR l).2)
    · exact add_nonneg (hR l).2 hS0

/-- When the kept sources of the candidates lie in `[0, B]` and the edge
probabilities in `[0, 1]`, every candidate value is at most `B`. -/
theorem vCands_le_bound (M : Model) (l : ℕ) (keep : ℕ → Bool) (fA : ℕ → ℚ)
    (x : ℕ) (B : ℚ)
    (hp : ∀ ed ∈ M.edges, 0 ≤ ed.p ∧ ed.p ≤ 1)
    (hf : ∀ k, keep k = true → 0 ≤ fA k ∧ fA k ≤ B) :
    ∀ c ∈ vCands M l keep fA 1 x, c.1 ≤ B := by
  intro c hc
  rcases List.mem_map.mp hc with ⟨ed, hed, hval⟩
  have hmem := List.mem_filter.mp hed
  have hkeep : keep ed.src = true := by
    have := hmem.2
    simp only [Bool.and_eq_true] at this
    exact this.2
  have hsrc := hf ed.src hkeep
  have hpe := hp ed hmem.1
  have h1 : c.1 = fA ed.src * ed.p * 1 := by rw [← hval]
  rw [h1, mul_one]
  exact le_trans (mul_le_of_le_one_right hsrc.1 hpe.2) hsrc.2

/-- Every cell of a Viterbi row past the first is bounded by the total
forward probability over the emitting states of the same row: the
infinite-model readout of `log_probability`. -/
theorem vNext_le_total (M : Model) (e : ℕ → ℕ → ℚ) (w : ℕ → ℚ)
    (hp : ∀ ed ∈ M.edges, 0 ≤ ed.p ∧ ed.p ≤ 1)
    (he : ∀ t i, 0 ≤ e t i)
    (hw : ∀ i, 0 ≤ w i ∧ w i ≤ 1) (t : ℕ) :
    ∀ l, (vTable M e w (t + 1) l).1 ≤
      ∑ i ∈ Finset.range M.silent_start, fwdTable M e (t + 1) i := by
  have hpt := vTable_le_fwdTable M e w (fun ed h => (hp ed h).1) he hw
  have hB0 : (0 : ℚ) ≤ ∑ i ∈ Finset.range M.silent_start, fwdTable M e (t + 1) i :=
    Finset.sum_nonneg (fun i _ => (hpt (t + 1) i).2)
  have hsingle : ∀ k, k < M.silent_start →
      fwdTable M e (t + 1) k ≤
        ∑ i ∈ Finset.range M.silent_start, fwdTable M e (t + 1) i := by
    intro k hk
    exact Finset.single_le_sum (fun i _ => (hpt (t + 1) i).2) (Finset.mem_range.mpr hk)
  have hcellB : ∀ k, k < M.silent_start →
      (vTable M e w (t + 1) k).1 ≤
        ∑ i ∈ Finset.range M.silent_start, fwdTable M e (t + 1) i :=
    fun k hk => le_trans (hpt (t + 1) k).1 (hsingle k hk)
  have hnotmem : ∀ k, k < M.silent_start → k ∉ silentRange M := by
    intro k hk hmem
    unfold silentRange at hmem
    have := List.mem_range'_1.mp hmem
    omega
  have hemitval : ∀ k, k < M.silent_start →
      vTable M e w (t + 1) k =
        vSil1 M (fun l => e t l * w l) (fun k' => (vTable M e w t k').1) t k := by
    intro k hk
    show vNext M (fun l => e t l * w l) (fun k' => (vTable M e w t k').1) t k = _
    exact sweep_not_mem _ _ _ k (hnotmem k hk)
  have hemitnn : ∀ k,
      0 ≤ (vEmit M (fun l => e t l * w l) (fun k' => (vTable M e w t k').1) t k).1 := by
    intro k
    unfold vEmit
    by_cases hk : k < M.silent_start
    · rw [if_pos hk]
      exact winFold_fst_ge_init _ _
    · rw [if_neg hk]
  have hemitB : ∀ k, k < M.silent_start →
      (vEmit M (fun l => e t l * w l) (fun k' => (vTable M e w t k').1) t k).1 ≤
        ∑ i ∈ Finset.range M.silent_start, fwdTable M e (t + 1) i := by
    intro k hk
    have h1 : (vEmit M (fun l => e t l * w l) (fun k' => (vTable M e w t k').1) t k).1 =
        (vTable M e w (t + 1) k).1 := by
      rw [hemitval k hk]
      unfold vSil1
      rw [if_pos hk]
    rw [h1]
    exact hcellB k hk
  have hP := sweep_pred
    (fun (a : ℚ × ℕ × ℕ) =>
      0 ≤ a.1 ∧ a.1 ≤ ∑ i ∈ Finset.range M.silent_start, fwdTable M e (t + 1) i)
    (fun f l => winFold (f l)
      (vCands M l (fun k => M.silent_start ≤ k && k < l) (fun k => (f k).1) 1 (t + 1)))
    (silentRange M)
    (vSil1 M (fun l => e t l * w l) (fun k' => (vTable M e w t k').1) t)
    ?_ ?_
  · exact fun l => (hP l).2
  · intro x
    unfold vSil1
    by_cases hx : x < M.silent_start
    · rw [if_pos hx]
      refine ⟨hemitnn x, ?_⟩
      have h1 : (vEmit M (fun l => e t l * w l) (fun k' => (vTable M e w t k').1) t x) =
          vTable M e w (t + 1) x := by
        rw [hemitval x hx]
        unfold vSil1
        rw [if_pos hx]
      rw [h1]
      exact hcellB x hx
    · rw [if_neg hx]
      refine ⟨winFold_fst_ge_init _ _, ?_⟩
      refine winFold_fst_le _ _ _ hB0 ?_
      refine vCands_le_bound M x (fun k => k < M.silent_start) _ (t + 1) _ hp ?_
      intro k hkeep
      have hk : k < M.silent_start := of_decide_eq_true hkeep
      exact ⟨hemitnn k, hemitB k hk⟩
  · intro g l _ hPg
    refine ⟨le_trans (hPg l).1 (winFold_fst_ge_init _ _), ?_⟩
    refine winFold_fst_le _ _ _ (hPg l).2 ?_
    refine vCands_le_bound M l (fun k => M.silent_start ≤ k && k < l) _ (t + 1) _ hp ?_
    intro k _
    exact ⟨(hPg k).1, (hPg k).2⟩

/-- A three-state model (one emitting state fed from start and feeding
end) used to exercise the Viterbi/forward comparison. -/
def C5M : Model := ⟨3, 1, 1, 2, [⟨1, 0, 1⟩, ⟨0, 2, 1⟩], true⟩

/-- **C5** (amended).  The Viterbi score never exceeds the forward
probability, provided the transition probabilities lie in `[0, 1]`, the
emission likelihoods are nonnegative, every state weight is at most `1`
(the unamended claim fails for larger weights, which the code permits),
and the model is finite or the sequence nonempty (for an infinite model
and the empty sequence the Viterbi argmax scans silent states that the
forward readout omits). -/
theorem C5_viterbi_le_forward (M : Model) (e : ℕ → ℕ → ℚ) (w : ℕ → ℚ) (n : ℕ)
    (hp : ∀ ed ∈ M.edges, 0 ≤ ed.p ∧ ed.p ≤ 1)
    (he : ∀ t i, 0 ≤ e t i)
    (hw : ∀ i, 0 ≤ w i ∧ w i ≤ 1)
    (hn : M.finite = true ∨ 1 ≤ n) :
    viterbiScore M e w n ≤ log_probability M e n := by
  unfold viterbiScore log_probability
  by_cases hMf : M.finite = true
  · rw [if_pos hMf, if_pos hMf]
    exact (vTable_le_fwdTable M e w (fun ed h => (hp ed h).1) he hw n M.end_index).1
  · rw [if_neg hMf, if_neg hMf]
    rcases hn with h | h
    · exact absurd h hMf
    · obtain ⟨t, rfl⟩ : ∃ t, n = t + 1 := ⟨n - 1, by omega⟩
      exact vNext_le_total M e w hp he hw t _

/-- **C5** (counterexample).  With state weight `5` (log-weight
`log 5 > 0`) on the emitting state, the Viterbi score of a one-symbol
sequence is `5/2` while its forward probability is `1/2`: the claimed
inequality fails because `Model._viterbi` adds the per-state log weights
into its scores and nothing constrains them to be nonpositive. -/
theorem C5_counterexample :
    viterbiScore C5M (fun _ _ => (1 : ℚ) / 2) (fun _ => 5) 1 = 5 / 2 ∧
    log_probability C5M (fun _ _ => (1 : ℚ) / 2) 1 = 1 / 2 ∧
    ¬ viterbiScore C5M (fun _ _ => (1 : ℚ) / 2) (fun _ => 5) 1 ≤
        log_probability C5M (fun _ _ => (1 : ℚ) / 2) 1 := by
  refine ⟨?_, ?_, ?_⟩ <;>
    norm_num [viterbiScore, log_probability, vTable, vNext, vSil1, vEmit, vRow0,
      vCands, winFold, fwdTable, fwdNext, fwdSil1, fwdEmit, fwdRow0, sweep,
      silentRange, inSum, edgeSum, C5M, List.range', List.filter, List.map,
      List.foldl, Function.update]

/-- **C5** (witness).  The amended inequality at a concrete finite model
with unit weights: both sides evaluate and the hypotheses hold. -/
theorem C5_viterbi_le_forward_witness :
    viterbiScore C5M (fun _ _ => (1 : ℚ) / 2) (fun _ => 1) 1 ≤
      log_probability C5M (fun _ _ => (1 : ℚ) / 2) 1 := by
  refine C5_viterbi_le_forward C5M (fun _ _ => (1 : ℚ) / 2) (fun _ => 1) 1 ?_ ?_ ?_
    (Or.inl rfl)
  · intro ed hed
    simp only [C5M, List.mem_cons, List.not_mem_nil, or_false] at hed
    rcases hed with rfl | rfl <;> norm_num
  · intro t i
    norm_num
  · intro i
    norm_num

/-- **C6** (amended).  The rate computed at yahmm.pyx line 499 is
`α · Σw / Σ(x·w)` — the reciprocal of the specification's
`Σw / (α · Σ(x·w))` — and the identity holds for every shape, sample and
weight list (degenerate denominators on both sides collapse to `0`). -/
theorem C6_gamma_rate_value (shape : ℚ) (items weights : List ℚ) :
    gamma_rate shape items weights = shape * weights.sum / dotList items weights := by
  unfold gamma_rate
  rcases eq_or_ne (shape * weights.sum) 0 with hs | hs
  · rw [hs]
    simp
  · rcases eq_or_ne (dotList items weights) 0 with hd | hd
    · rw [hd]
      simp
    · field_simp

/-- **C6** (counterexample).  For shape `2`, one sample `1` of weight `1`,
the code's rate is `2` while the specification's formula gives `1/2`. -/
theorem C6_counterexample :
    gamma_rate 2 [1] [1] = 2 ∧ gamma_rate_spec 2 [1] [1] = 1 / 2 ∧
      gamma_rate 2 [1] [1] ≠ gamma_rate_spec 2 [1] [1] := by
  refine ⟨?_, ?_, ?_⟩ <;> norm_num [gamma_rate, gamma_rate_spec, dotList]

/-- **C8**.  When the best-path probability at the readout cell is zero
(`log_likelihood == NEGINF`), `Model._viterbi` skips the traceback and
returns the pair `(NEGINF, None)`. -/
theorem C8_viterbi_impossible (M : Model) (e : ℕ → ℕ → ℚ) (w : ℕ → ℚ) (n : ℕ)
    (h : viterbiScore M e w n = 0) : viterbi M e w n = (0, none) := by
  have h2 : (vTable M e w n (if M.finite = true then M.end_index
      else vArgmax (fun l => (vTable M e w n l).1) M.m)).1 = 0 := by
    rw [← h]
    unfold viterbiScore
    by_cases hMf : M.finite = true
    · rw [if_pos hMf, if_pos hMf]
    · rw [if_neg hMf, if_neg hMf]
  simp only [viterbi]
  rw [if_pos h2, h2]

/-- **C8** (witness).  On a model whose emission probabilities are all
zero, the score is zero and `viterbi` returns `(0, none)`. -/
theorem C8_viterbi_impossible_witness :
    viterbiScore C5M (fun _ _ => (0 : ℚ)) (fun _ => 1) 1 = 0 ∧
    viterbi C5M (fun _ _ => (0 : ℚ)) (fun _ => 1) 1 = (0, none) := by
  have hs : viterbiScore C5M (fun _ _ => (0 : ℚ)) (fun _ => 1) 1 = 0 := by
    norm_num [viterbiScore, vTable, vNext, vSil1, vEmit, vRow0, vCands, winFold,
      sweep, silentRange, C5M, List.range', List.filter, List.map, List.foldl,
      Function.update]
  exact ⟨hs, C8_viterbi_impossible C5M (fun _ _ => (0 : ℚ)) (fun _ => 1) 1 hs⟩

/-- **C10**.  The stored pseudocount is `pseudocount or probability`: both
`None` and an explicit `0` fall back to the transition probability, and
only a nonzero pseudocount is stored as supplied. -/
theorem C10_add_transition_pseudocount (p : ℚ) :
    add_transition_pseudocount p (some 0) = p ∧
    add_transition_pseudocount p none = p ∧
    ∀ c : ℚ, c ≠ 0 → add_transition_pseudocount p (some c) = c := by
  refine ⟨?_, rfl, ?_⟩
  · show (if (0 : ℚ) = 0 then p else (0 : ℚ)) = p
    rw [if_pos rfl]
  · intro c hc
    show (if c = 0 then p else c) = c
    rw [if_neg hc]

/-! ## State reordering in `Model.bake` (yahmm.pyx lines 1542-1575)

`bake` partitions the graph's nodes into `normal_states` and
`silent_states`, sorts the silent subgraph topologically with
`networkx.topological_sort` (external library code, modelled here by a
Kahn-style sort per its documented behaviour: repeatedly emit a node
with no incoming edge from the remaining nodes, failing on a cycle), and
sets `self.states = normal_states + silent_states_sorted` with
`silent_start = len(normal_states)`. -/

section BakeOrder

variable {σ : Type} [DecidableEq σ]

/-- `v` has no incoming edge from any remaining node. -/
def noIncoming (edges : List (σ × σ)) (rem : List σ) (v : σ) : Bool :=
  !(rem.any (fun u => decide ((u, v) ∈ edges)))

/-- Fueled Kahn sort: emit the first remaining node with no incoming
edge from the remaining nodes; `none` on a cycle. -/
def topoSortFuel : ℕ → List (σ × σ) → List σ → Option (List σ)
  | 0, _, rem => if rem = [] then some [] else none
  | fuel + 1, edges, rem =>
    if rem = [] then some []
    else
      match rem.find? (noIncoming edges rem) with
      | none => none
      | some v => (topoSortFuel fuel edges (rem.erase v)).map (fun out => v :: out)

/-- `networkx.topological_sort` on the silent subgraph. -/
def topoSort (edges : List (σ × σ)) (rem : List σ) : Option (List σ) :=
  topoSortFuel rem.length edges rem

/-- The state vector `bake` builds: emitting states in their original
order, then the silent states in topological order. -/
def bakeOrder (silent : σ → Bool) (states : List σ) (edges : List (σ × σ)) :
    Option (List σ) :=
  match topoSort (edges.filter (fun e => silent e.1 && silent e.2))
      (states.filter (fun s => silent s)) with
  | none => none
  | some ss => some (states.filter (fun s => !silent s) ++ ss)

theorem topoSortFuel_perm : ∀ (fuel : ℕ) (edges : List (σ × σ)) (rem out : List σ),
    rem.length ≤ fuel → topoSortFuel fuel edges rem = some out → out.Perm rem := by
  intro fuel
  induction fuel with
  | zero =>
    intro edges rem out hlen h
    have hrem : rem = [] := List.eq_nil_of_length_eq_zero (Nat.le_zero.mp hlen)
    subst hrem
    unfold topoSortFuel at h
    rw [if_pos rfl] at h
    rw [← Option.some.inj h]
  | succ fuel ih =>
    intro edges rem out hlen h
    unfold topoSortFuel at h
    by_cases hrem : rem = []
    · rw [if_pos hrem] at h
      rw [← Option.some.inj h, hrem]
    · rw [if_neg hrem] at h
      cases hfind : rem.find? (noIncoming edges rem) with
      | none => rw [hfind] at h; exact absurd h (by simp)
      | some v =>
        rw [hfind] at h
        rcases Option.map_eq_some'.mp h with ⟨out', hout', rfl⟩
        have hv : v ∈ rem := List.mem_of_find?_eq_some hfind
        have hlen' : (rem.erase v).length ≤ fuel := by
          rw [List.length_erase_of_mem hv]
          omega
        have hperm' := ih edges (rem.erase v) out' hlen' hout'
        exact (hperm'.cons v).trans (List.perm_cons_erase hv).symm

theorem indexOf_append_of_not_mem (x : σ) :
    ∀ (A B : List σ), x ∉ A → (A ++ B).indexOf x = A.length + B.indexOf x := by
  intro A
  induction A with
  | nil => intro B _; rw [List.nil_append, List.length_nil, Nat.zero_add]
  | cons a t ih =>
    intro B hx
    have hxa : x ≠ a := fun h => hx (h ▸ List.mem_cons_self _ _)
    have hxt : x ∉ t := fun h => hx (List.mem_cons_of_mem _ h)
    rw [List.cons_append, List.indexOf_cons_ne _ (Ne.symm hxa), ih B hxt,
      List.length_cons]
    omega

theorem topoSortFuel_order :
    ∀ (fuel : ℕ) (edges : List (σ × σ)) (rem out : List σ),
    rem.length ≤ fuel → rem.Nodup → topoSortFuel fuel edges rem = some out →
    ∀ u v, (u, v) ∈ edges → u ∈ rem → v ∈ rem →
      out.indexOf u < out.indexOf v := by
  intro fuel
  induction fuel with
  | zero =>
    intro edges rem out hlen _ _ u v _ hu _
    have hrem : rem = [] := List.eq_nil_of_length_eq_zero (Nat.le_zero.mp hlen)
    subst hrem
    exact absurd hu (List.not_mem_nil u)
  | succ fuel ih =>
    intro edges rem out hlen hnd h u v huv hu hv
    unfold topoSortFuel at h
    by_cases hrem : rem = []
    · subst hrem
      exact absurd hu (List.not_mem_nil u)
    · rw [if_neg hrem] at h
      cases hfind : rem.find? (noIncoming edges rem) with
      | none => rw [hfind] at h; exact absurd h (by simp)
      | some w =>
        rw [hfind] at h
        rcases Option.map_eq_some'.mp h with ⟨out', hout', rfl⟩
        have hw : w ∈ rem := List.mem_of_find?_eq_some hfind
        have hpw : noIncoming edges rem w = true := List.find?_some hfind
        have hvw : v ≠ w := by
          intro hvw
          unfold noIncoming at hpw
          rw [Bool.not_eq_true'] at hpw
          have h2 := (List.any_eq_false.mp hpw) u hu
          exact h2 (decide_eq_true (hvw ▸ huv))
        by_cases huw : u = w
        · subst huw
          rw [List.indexOf_cons_self, List.indexOf_cons_ne _ (Ne.symm hvw)]
          exact Nat.succ_pos _
        · have hu' : u ∈ rem.erase w := (List.mem_erase_of_ne huw).mpr hu
          have hv' : v ∈ rem.erase w := (List.mem_erase_of_ne hvw).mpr hv
          have hlen' : (rem.erase w).length ≤ fuel := by
            rw [List.length_erase_of_mem hw]
            omega
          have := ih edges (rem.erase w) out' hlen' (hnd.erase w) hout' u v huv hu' hv'
          rw [List.indexOf_cons_ne _ (Ne.symm huw), List.indexOf_cons_ne _ (Ne.symm hvw)]
          omega

/-- **C4**.  After `bake` the state vector is the emitting states (in
their original order) followed by a permutation of the silent states,
and whenever the topological sort of the silent subgraph succeeds, every
transition between two silent states goes from a strictly lower to a
strictly higher position in the vector.  (`networkx.topological_sort` is
external library code, modelled here by `topoSort`.) -/
theorem C4_bake_state_order (silent : σ → Bool) (states : List σ)
    (edges : List (σ × σ)) (out : List σ)
    (hnd : states.Nodup)
    (hE : ∀ e ∈ edges, e.1 ∈ states ∧ e.2 ∈ states)
    (hout : bakeOrder silent states edges = some out) :
    out.take (states.filter (fun s => !silent s)).length =
      states.filter (fun s => !silent s) ∧
    (out.drop (states.filter (fun s => !silent s)).length).Perm
      (states.filter (fun s => silent s)) ∧
    out.Perm states ∧
    ∀ e ∈ edges, silent e.1 = true → silent e.2 = true →
      out.indexOf e.1 < out.indexOf e.2 := by
  unfold bakeOrder at hout
  cases hts : topoSort (edges.filter (fun e => silent e.1 && silent e.2))
      (states.filter (fun s => silent s)) with
  | none => rw [hts] at hout; exact absurd hout (by simp)
  | some ss =>
    rw [hts] at hout
    have hout' : states.filter (fun s => !silent s) ++ ss = out := Option.some.inj hout
    subst hout'
    have hperm : ss.Perm (states.filter (fun s => silent s)) :=
      topoSortFuel_perm _ _ _ _ le_rfl hts
    refine ⟨List.take_left _ _, ?_, ?_, ?_⟩
    · rw [List.drop_left]
      exact hperm
    · refine ((hperm.append_left (states.filter (fun s => !silent s))).trans ?_)
      have hfc : states.filter (fun a => !!silent a) = states.filter (fun s => silent s) := by
        refine List.filter_congr (fun a _ => ?_)
        rw [Bool.not_not]
      rw [← hfc]
      exact List.filter_append_perm _ states
    · intro e he h1 h2
      have he1R : e.1 ∈ states.filter (fun s => silent s) :=
        List.mem_filter.mpr ⟨(hE e he).1, h1⟩
      have he2R : e.2 ∈ states.filter (fun s => silent s) :=
        List.mem_filter.mpr ⟨(hE e he).2, h2⟩
      have he1A : e.1 ∉ states.filter (fun s => !silent s) := by
        intro hmem
        have := (List.mem_filter.mp hmem).2
        rw [h1] at this
        exact absurd this (by simp)
      have he2A : e.2 ∉ states.filter (fun s => !silent s) := by
        intro hmem
        have := (List.mem_filter.mp hmem).2
        rw [h2] at this
        exact absurd this (by simp)
      have hmemE : e ∈ edges.filter (fun e => silent e.1 && silent e.2) :=
        List.mem_filter.mpr ⟨he, by rw [h1, h2]; rfl⟩
      have hord := topoSortFuel_order _ _ _ _ le_rfl (hnd.filter _) hts e.1 e.2
        hmemE he1R he2R
      rw [indexOf_append_of_not_mem _ _ _ he1A, indexOf_append_of_not_mem _ _ _ he2A]
      omega

end BakeOrder

/-- **C4** (witness).  A concrete bake ordering: two emitting states
`0, 1`, two silent states `2, 3` with the silent transition `3 → 2`; the
baked order is `[0, 1, 3, 2]`, a permutation of the states in which the
transition runs from the lower position to the higher one. -/
theorem C4_bake_state_order_witness :
    ([0, 1, 3, 2] : List ℕ).Perm [0, 1, 2, 3] ∧
    List.indexOf 3 ([0, 1, 3, 2] : List ℕ) < List.indexOf 2 [0, 1, 3, 2] := by
  have h := C4_bake_state_order (fun s => decide (2 ≤ s)) [0, 1, 2, 3] [(3, 2)]
    [0, 1, 3, 2] (by decide) (by decide) (by decide)
  exact ⟨h.2.2.1, h.2.2.2 (3, 2) (List.mem_singleton.mpr rfl) (by decide) (by decide)⟩

/-! ## Readout of `Model._log_probability` (yahmm.pyx lines 2514-2532)

`bake` (lines 1656-1661) sets `finite = 0` exactly when the end state has
no incoming edge, and `_log_probability` reads `f[n, end_index]` for a
finite model and folds `pair_lse` over the emitting cells `f[n, i]`,
`i < silent_start`, otherwise. -/

/-- The `finite` flag as `Model.bake` computes it: `1` iff the in-edge
count of the end state is nonzero. -/
def bake_finite (edges : List Edge) (end_index : ℕ) : Bool :=
  !((edges.filter (fun ed => ed.tgt == end_index)).length == 0)

/-- **C2**.  When the `finite` flag is the one `bake` derives from the
in-degree of the end state, `log_probability` is the forward cell at the
end state if that in-degree is nonzero and the sum (log-sum-exp in log
space) of the forward cells of the emitting states otherwise. -/
theorem C2_log_probability_readout (M : Model) (e : ℕ → ℕ → ℚ) (n : ℕ)
    (hfin : M.finite = bake_finite M.edges M.end_index) :
    log_probability M e n =
      if (M.edges.filter (fun ed => ed.tgt == M.end_index)).length ≠ 0 then
        fwdTable M e n M.end_index
      else ∑ i ∈ Finset.range M.silent_start, fwdTable M e n i := by
  unfold log_probability
  unfold bake_finite at hfin
  by_cases hc : (M.edges.filter (fun ed => ed.tgt == M.end_index)).length = 0
  · rw [if_neg (not_not_intro hc)]
    have hfalse : M.finite = false := by
      rw [hfin, hc]
      rfl
    rw [if_neg]
    rw [hfalse]
    exact Bool.false_ne_true
  · rw [if_pos hc]
    have htrue : M.finite = true := by
      rw [hfin]
      simp only [Bool.not_eq_true', beq_eq_false_iff_ne]
      exact hc
    rw [if_pos htrue]

/-- **C2** (witness).  On a concrete finite model (one edge into end) the
readout is the forward cell at the end state. -/
theorem C2_log_probability_readout_witness :
    log_probability C5M (fun _ _ => (1 : ℚ) / 2) 1 =
      fwdTable C5M (fun _ _ => (1 : ℚ) / 2) 1 C5M.end_index := by
  have h := C2_log_probability_readout C5M (fun _ _ => (1 : ℚ) / 2) 1 (by decide)
  rwa [if_pos (by decide)] at h

/-! ## The normalization tolerance of `Model.bake` -/

theorem list_sum_map_div (l : List ℚ) (r : ℚ) :
    (l.map (fun p => p / r)).sum = l.sum / r := by
  induction l with
  | nil => simp
  | cons a t ih => rw [List.map_cons, List.sum_cons, List.sum_cons, ih, add_div]

/-- `round(Z, 8)` is within half a unit in the eighth decimal place. -/
theorem rnd8_close (q : ℚ) : |q - rnd8 q| ≤ 1 / 200000000 := by
  unfold rnd8
  have h1 : (⌊q * 100000000 + 1 / 2⌋ : ℚ) ≤ q * 100000000 + 1 / 2 :=
    Int.floor_le _
  have h2 : q * 100000000 + 1 / 2 < (⌊q * 100000000 + 1 / 2⌋ : ℚ) + 1 :=
    Int.lt_floor_add_one _
  rw [abs_le]
  constructor <;> linarith [h1, h2]

/-- **C3** (amended).  The normalization divides by the rounded sum, so
the outgoing probabilities of a state sum to `1` only within `1e-8`
of the rounding slack — and only when the rounded sum is not tiny.
Under the (amended) hypothesis that the rounded raw sum is at least
`1/2`, the normalized sum is within `1e-8` of `1`. -/
theorem C3_bake_normalize_sum (outs : List ℚ)
    (h : 1 / 2 ≤ rnd8 outs.sum) :
    |(bake_normalize outs).sum - 1| ≤ 1 / 100000000 := by
  have hclose := rnd8_close outs.sum
  have hRpos : (0 : ℚ) < rnd8 outs.sum := lt_of_lt_of_le (by norm_num) h
  unfold bake_normalize
  by_cases hR1 : rnd8 outs.sum = 1
  · rw [if_neg (not_not_intro hR1)]
    rw [hR1] at hclose
    calc |outs.sum - 1| ≤ 1 / 200000000 := hclose
      _ ≤ 1 / 100000000 := by norm_num
  · rw [if_pos hR1, list_sum_map_div]
    have hkey : outs.sum / rnd8 outs.sum - 1 =
        (outs.sum - rnd8 outs.sum) / rnd8 outs.sum := by
      field_simp
    rw [hkey, abs_div, abs_of_pos hRpos]
    calc |outs.sum - rnd8 outs.sum| / rnd8 outs.sum
        ≤ (1 / 200000000) / (1 / 2) :=
          div_le_div (by norm_num) hclose (by norm_num) h
      _ = 1 / 100000000 := by norm_num

/-- **C3** (counterexample).  One outgoing edge of raw probability
`0.1000000049`: the sum rounds to `0.1`, the normalization divides by it,
and the normalized probabilities sum to `1.000000049`, off by `4.9e-8`,
nearly five times the claimed `1e-8` tolerance. -/
theorem C3_counterexample :
    (bake_normalize [1000000049 / 10000000000]).sum = 1000000049 / 1000000000 ∧
    ¬ |(bake_normalize [1000000049 / 10000000000]).sum - 1| ≤ 1 / 100000000 := by
  have hfl : (⌊(1000000049 : ℚ) / 10000000000 * 100000000 + 1 / 2⌋ : ℤ) = 10000000 := by
    rw [Int.floor_eq_iff]
    norm_num
  have hsum : (bake_normalize [1000000049 / 10000000000]).sum =
      1000000049 / 1000000000 := by
    simp only [bake_normalize, rnd8, List.sum_cons, List.sum_nil, add_zero, hfl]
    norm_num
  refine ⟨hsum, ?_⟩
  rw [hsum]
  intro habs
  rw [abs_le] at habs
  have h2 := habs.2
  norm_num at h2

/-- **C3** (witness).  A state whose raw outgoing probabilities already
sum to `1` keeps a normalized sum within the tolerance. -/
theorem C3_bake_normalize_sum_witness :
    |(bake_normalize [1 / 2, 1 / 2]).sum - 1| ≤ 1 / 100000000 := by
  refine C3_bake_normalize_sum [1 / 2, 1 / 2] ?_
  have hfl : (⌊((1 : ℚ) / 2 + (1 / 2 + 0)) * 100000000 + 1 / 2⌋ : ℤ) = 100000000 := by
    rw [Int.floor_eq_iff]
    norm_num
  simp only [rnd8, List.sum_cons, List.sum_nil, hfl]
  norm_num

/-! ## Claim-level results for the sampler and the two DP readouts -/

/-- A finite sample model: emitting state `0` with edges `0 → 0` (`1/2`)
and `0 → end` (`1/2`), silent start `1` with edge `1 → 0` (`1`), end `2`
with no out-edges.  CSR arrays as `bake` lays them out. -/
def C9S : SampleModel :=
  ⟨3, 1, 2, (fun s => decide (1 ≤ s)), true, [0, 2, 3, 3], [0, 2, 0],
    [1 / 2, 1 / 2, 1]⟩

/-- **C9**.  The avoid-the-end block of `Model._sample` fails: sampling
two symbols from `C9S`, the first draw walks `start → 0` and emits once;
the second draw selects the end edge of state `0`, which is not that
state's sole out-edge (`0 → 0` is also available), yet the walk still
terminates at the end state with only one emission.  The avoidance
cumulative is built from the stale loop variable `k` (the chosen edge
index, line 1820) instead of the previous state's edge range, and the
re-selection loop then scans the out-edges of `i == end_index`
(line 1828), an empty range, leaving `i` at the end state. -/
theorem C9_sample_end_not_avoided :
    sampleWalk C9S 2 10 C9S.start_index 0 0 [9 / 10, 3 / 5, 3 / 10] [] =
      SampleOutcome.reachedEnd [1, 0] 1 := by
  norm_num [sampleWalk, selectEdge, avoidCumul, cumArray, prefixSums,
    SampleModel.off, SampleModel.tgt, C9S, List.range', List.find?,
    List.getLastD, List.flatMap, List.range_succ, Function.update]

/-- The infinite model exhibiting the forward/backward disagreement:
emitting state `0` with self-loop `0 → 0` (`1`), silent start `1` with
edge `1 → 0` (`1`), `finite = false`. -/
def C1M : Model := ⟨3, 1, 1, 2, [⟨1, 0, 1⟩, ⟨0, 0, 1⟩], false⟩

/-- **C1** (amended).  For finite baked models the forward readout
`f[n, end_index]` and the backward readout `b[0, start_index]` agree
exactly (in exact arithmetic, hence within every tolerance); the
unamended claim fails for infinite models, whose backward
initialization `b[n, i] = e[n-1, i]` double-counts the final emission. -/
theorem C1_forward_backward_finite (M : Model) (e : ℕ → ℕ → ℚ) (n : ℕ)
    (hfin : M.finite = true)
    (hE : ∀ ed ∈ M.edges, ed.src < M.m ∧ ed.tgt < M.m)
    (hs1 : M.silent_start ≤ M.start_index) (hs2 : M.start_index < M.m)
    (he1 : M.silent_start ≤ M.end_index) (he2 : M.end_index < M.m) :
    fwdTable M e n M.end_index = bwdTable M e n 0 M.start_index :=
  fwd_bwd_finite M e n hfin hE hs1 hs2 he1 he2

/-- **C1** (witness).  The agreement at a concrete finite model and a
one-symbol sequence. -/
theorem C1_forward_backward_finite_witness :
    fwdTable C5M (fun _ _ => (1 : ℚ) / 2) 1 C5M.end_index =
      bwdTable C5M (fun _ _ => (1 : ℚ) / 2) 1 0 C5M.start_index :=
  C1_forward_backward_finite C5M (fun _ _ => (1 : ℚ) / 2) 1 rfl (by decide)
    (by decide) (by decide) (by decide) (by decide)

/-- **C1** (counterexample).  On the infinite model `C1M` with every
emission likelihood `1/2`, the forward readout of a one-symbol sequence
is `1/2` but the backward readout is `1/4`: the log-probabilities differ
by `log 2 ≈ 0.693`, far beyond the claimed `1e-9` tolerance. -/
theorem C1_counterexample :
    (∑ i ∈ Finset.range C1M.silent_start, fwdTable C1M (fun _ _ => (1 : ℚ) / 2) 1 i) =
      1 / 2 ∧
    bwdTable C1M (fun _ _ => (1 : ℚ) / 2) 1 0 C1M.start_index = 1 / 4 ∧
    ¬ |Real.log (1 / 2) - Real.log (1 / 4)| ≤ 1 / 1000000000 := by
  refine ⟨?_, ?_, ?_⟩
  · norm_num [fwdTable, fwdNext, fwdSil1, fwdEmit, fwdRow0, sweep, silentRange,
      inSum, edgeSum, C1M, List.range', List.filter, List.map, Function.update,
      Finset.sum_range_succ]
  · norm_num [bwdTable, bwdAux, bwdStep, bwdP2, bwdP1, bwdInit, bwdSil, sweep,
      silentRange, outSum, edgeSum, C1M, List.range', List.filter, List.map,
      Function.update]
  · have h1 : Real.log (1 / 2) = -Real.log 2 := by
      rw [one_div, Real.log_inv]
    have h4 : Real.log ((1 : ℝ) / 4) = -(2 * Real.log 2) := by
      rw [show ((1 : ℝ) / 4) = ((1 / 2 : ℝ)) ^ 2 by norm_num, Real.log_pow, h1]
      push_cast
      ring
    intro habs
    rw [h1, h4] at habs
    have hdiff : -Real.log 2 - -(2 * Real.log 2) = Real.log 2 := by ring
    rw [hdiff, abs_of_pos (Real.log_pos (by norm_num))] at habs
    linarith [Real.log_two_gt_d9]

/-- **C10** (witness).  At probability `3`: pseudocount `0` is stored as
`3`, and pseudocount `2` is stored as `2`. -/
theorem C10_add_transition_pseudocount_witness :
    add_transition_pseudocount 3 (some 0) = 3 ∧
    add_transition_pseudocount 3 (some 2) = 2 := by
  refine ⟨(C10_add_transition_pseudocount 3).1, ?_⟩
  exact (C10_add_transition_pseudocount 3).2.2 2 (by norm_num)

end Yahmm
